import Mathlib

/-!
The task-queue core of evm_block_indexer.

A shallow embedding of the block-number task queue of `src/evm` (monitor.go,
workers.go, state.go) and the properties of its specification.

Conventions of the embedding.

* A Go `string` is a Lean `String`; Go compares strings bytewise, which on
  UTF-8 text is the order of the code points used here.
* A Go `int` (64 bit) is an `Int`; where the source can overflow the value is
  wrapped or clamped explicitly (`wrapInt64`, `Atoi`).
* A set of the shared store is the list of its members as `SMEMBERS` returns
  them; the operations below never introduce a duplicate.  The order of the
  list stands for the (unspecified) order in which the store hands members out.
* Calls that the source starts as goroutines and joins before continuing are
  run one after the other; their writes to the store are additions to a set,
  whose order does not matter.  What such a goroutine reads from a variable
  that the starting code changes meanwhile is a parameter (`Env.closureRead`).
-/

namespace Evm

/-! ## Integers and decimal text -/

/-- Largest value of a 64-bit Go `int`. -/
def maxInt64 : Int := 9223372036854775807

/-- Smallest value of a 64-bit Go `int`. -/
def minInt64 : Int := -9223372036854775808

/-- Largest value of a Go `uint64`. -/
def maxUint64 : Nat := 18446744073709551615

/-- Two's complement wrap-around of 64-bit signed arithmetic. -/
def wrapInt64 (x : Int) : Int :=
  (x + 9223372036854775808) % 18446744073709551616 - 9223372036854775808

/-- Value of a decimal digit, `none` for any other character. -/
def digitVal (c : Char) : Option Nat :=
  if 48 ≤ c.toNat ∧ c.toNat ≤ 57 then some (c.toNat - 48) else none

/-- The digit loop of `strconv.ParseUint` in base 10, with the value `n` read
so far: `none` for a syntax error (a character that is not a decimal digit);
as soon as the value leaves the `uint64` range the loop returns the largest
`uint64` (a range error) without looking at the rest. -/
def parseDigits : List Char → Nat → Option Nat
  | [], n => some n
  | c :: cs, n =>
    match digitVal c with
    | some d => if maxUint64 < n * 10 + d then some maxUint64 else parseDigits cs (n * 10 + d)
    | none => none

/-- Value that `strconv.ParseUint(s, 10, 64)` returns beside its error: `none`
stands for a syntax error, which the empty text is too. -/
def parseMagnitude (cs : List Char) : Option Nat :=
  match cs with
  | [] => none
  | _ :: _ => parseDigits cs 0

/-- Result of `strconv.Atoi` with the error discarded (`n, _ := strconv.Atoi(s)`):
an optional sign followed by decimal digits; `0` on a syntax error, the nearest
bound of the 64-bit range on a range error. -/
def Atoi (s : String) : Int :=
  match s.data with
  | [] => 0
  | c :: cs =>
    if c = '-' then
      match parseMagnitude cs with
      | some un => if (9223372036854775808 : Nat) < un then minInt64 else -(un : Int)
      | none => 0
    else if c = '+' then
      match parseMagnitude cs with
      | some un => if (9223372036854775808 : Nat) ≤ un then maxInt64 else (un : Int)
      | none => 0
    else
      match parseMagnitude (c :: cs) with
      | some un => if (9223372036854775808 : Nat) ≤ un then maxInt64 else (un : Int)
      | none => 0

/-- Result of `strconv.ParseUint(s, 10, 64)` with the error discarded: decimal
digits only; `0` on a syntax error, the largest `uint64` on a range error. -/
def ParseUint (s : String) : Nat :=
  match parseMagnitude s.data with
  | some un => un
  | none => 0

/-- Decimal text of a Go `int`, as the store client writes an integer argument
and as `fmt.Sprint` prints one. -/
def itoa (i : Int) : String := toString i

/-- Text of `fmt.Sprint` on a `uint64`. -/
def Sprint (n : Nat) : String := toString n

/-- Conversion `int64(n)` of a `uint64`. -/
def toInt64 (n : Nat) : Int := wrapInt64 (n : Int)

/-! ## Strings in sorted order -/

/-- Strict lexicographic order on the characters of two strings. -/
def charsLess : List Char → List Char → Bool
  | [], [] => false
  | [], _ :: _ => true
  | _ :: _, [] => false
  | a :: as, b :: bs =>
    if a.toNat < b.toNat then true
    else if b.toNat < a.toNat then false
    else charsLess as bs

/-- Go string comparison `a < b`. -/
def strLess (a b : String) : Bool := charsLess a.data b.data

/-- Insertion of one string into an ascending list. -/
def insertSorted (x : String) : List String → List String
  | [] => [x]
  | y :: ys => if strLess y x then y :: insertSorted x ys else x :: y :: ys

/-- Result of `sort.Strings`: the same strings in ascending order. -/
def sortStrings : List String → List String
  | [] => []
  | x :: xs => insertSorted x (sortStrings xs)

/-- First element `xs[0]` of a sorted slice (the empty text when there is
none; the callers test for emptiness first). -/
def firstOf (xs : List String) : String := xs.headD ""

/-- Last element `xs[len(xs)-1]` of a sorted slice. -/
def lastOf (xs : List String) : String := xs.getLastD ""

/-! ## Sets of the shared store -/

/-- Command SISMEMBER. -/
def sismember (set : List String) (x : String) : Bool := decide (x ∈ set)

/-- Command SADD of one member. -/
def sadd (set : List String) (x : String) : List String :=
  if x ∈ set then set else set ++ [x]

/-- Command SREM of one member. -/
def srem (set : List String) (x : String) : List String :=
  set.filter (fun y => decide (y ≠ x))

/-- Union of two sets. -/
def sunion (a b : List String) : List String := b.foldl sadd a

/-- Difference of two sets. -/
def sdiff (a b : List String) : List String :=
  a.filter (fun x => decide (x ∉ b))

/-! ## Chain data and transaction records -/

/-- Account address of go-ethereum: its 20 bytes. -/
structure Address where
  bytes : List Nat
deriving DecidableEq, Repr

/-- The zero value `common.Address{}`. -/
def zeroAddress : Address := ⟨List.replicate 20 0⟩

/-- Transaction of a block as the RPC client exposes it (`TxType` is the
method `Type`).  The field `Sender` is the result of `types.Sender`, the zero
address when the recovery fails. -/
structure Tx where
  Hash : String
  ChainId : Int
  Nonce : Nat
  Value : Int
  GasPrice : Int
  Gas : Nat
  Data : List Nat
  To : Option Address
  TxType : Nat
  Sender : Address
deriving DecidableEq, Repr

/-- Block as the RPC client exposes it. -/
structure Block where
  Hash : String
  Transactions : List Tx
deriving DecidableEq, Repr

/-- Record `Transaction` that `ProcessBlock` builds for one transaction
(`TxType` is its field `Type`). -/
structure Transaction where
  Hash : String
  BlockNumber : Nat
  BlockHash : String
  From : String
  To : String
  Value : String
  Nonce : Nat
  Byte4Data : String
  Timestamp : Nat
  TxType : Int
  ChainID : Int
  Confirmations : Int
  BlockTxs : Int
  GasPrice : String
  TransactionFee : String
deriving DecidableEq, Repr

/-- Modelled from the spec: the declaration of `TransactionHashScan`, the type
into which `SaveTransactionToDB` decodes a stored record, is not among the
sources; it carries the attributes of the transaction record of the data model
under the names `SaveTransactionToDB` reads (`TxType` for `Type`). -/
structure TransactionHashScan where
  Hash : String
  BlockNumber : Nat
  BlockHash : String
  From : String
  To : String
  TranactionFee : String
  GasPrice : String
  Value : String
  Nonce : Nat
  Byte4Data : String
  Timestamp : Nat
  TxType : Int
  ChainID : Int
  Confirmations : Int
  BlockTxs : Int
deriving DecidableEq, Repr

/-- The zero value of `TransactionHashScan` (`var transactionHashScan
TransactionHashScan`). -/
def zeroTransactionHashScan : TransactionHashScan :=
  ⟨"", 0, "", "", "", "", "", "", 0, "", 0, 0, 0, 0, 0⟩

/-- Row of the table `EVMBlcockNumber`. -/
structure BlockNumberRow where
  blockNumber : Int
  consumeStatus : Int
deriving DecidableEq, Repr

/-! ## State and environment -/

/-- The shared store (four block-number sets and the hash `transactions`), the
process-local scan cursor and the two database tables. -/
structure State where
  all : List String
  noConsumed : List String
  consuming : List String
  consumed : List String
  transactions : List (String × String)
  cursor : Nat
  blockNumberTable : List BlockNumberRow
  transactionTable : List TransactionHashScan
deriving DecidableEq, Repr

/-- What the code obtains from its collaborators.

* `provider`: `w.Provider`, `none` for a nil client, else `BlockByNumber`
  (`none` for a nil block);
* `now`: the clock;
* `keccakCase`: the letter casing that `Address.Hex` derives from the Keccak
  hash of the hex digits;
* `marshal`, `unmarshal`: `json.Marshal` of a record and `json.Unmarshal` into a
  `TransactionHashScan` (`none` for an error);
* `smove`: what the call `SMove(CONSUMING, NO_CONSUMED, members)` with a slice
  as its member argument does to the source and the destination set;
* `hscan`: `HScan(TRANSACTIONS, cursor, "*", count)`, the returned slice and the
  next cursor (`none` for an error);
* `mapOrder`: the order in which `range` visits the entries of a Go map;
* `dbExec k`: whether the `k`-th database transaction of a call commits;
* `closureRead k batch`: what the goroutine that `CheckRedisTaskQueue` starts
  for its `k`-th full batch reads from the variable `blocksToProcess` when it
  runs.  The closure holds the variable, not its value, and the loop sets the
  variable to nil right after the `go` statement: the goroutine reads `batch`
  only if it runs before that assignment, nil if it runs right after it, and
  otherwise what the loop has collected since. -/
structure Env where
  provider : Option (Int → Option Block)
  now : Nat
  keccakCase : List Char → List Char
  marshal : Transaction → String
  unmarshal : String → Option TransactionHashScan
  smove : List String → List String → List String → List String × List String
  hscan : List (String × String) → Nat → Nat → Option (List String × Nat)
  mapOrder : List (String × TransactionHashScan) → List (String × TransactionHashScan)
  dbExec : Nat → Bool
  closureRead : Nat → List Int → List Int

/-! ## Monitor (monitor.go) -/

/-- Method `Monitor.parseInt`. -/
def parseInt (str : String) : Int := Atoi str

/-- Command SDIFFSTORE NO_CONSUMED ALL CONSUMED CONSUMING. -/
def diffRepair (s : State) : State :=
  { s with noConsumed := sdiff (sdiff s.all s.consumed) s.consuming }

/-- Method `Monitor.BatchProcessCheck`: every number of the batch that is not a
member of ALL is queued on a pipeline, which is then executed. -/
def BatchProcessCheck (blockNumbers : List Int) (s : State) : State :=
  let queued := blockNumbers.filter (fun n => !(sismember s.all (itoa n)))
  { s with all := queued.foldl (fun acc n => sadd acc (itoa n)) s.all }

/-- Size of a batch in `CheckRedisTaskQueue`. -/
def batchSize : Nat := 100000

/-- The loop `for i := first; i <= last; i++` of `CheckRedisTaskQueue`, with
the number `started` of goroutines started so far and the batch
`blocksToProcess` collected so far; `fuel` bounds the iterations.  When the
batch is full a goroutine is started and the variable is set to nil; the
goroutine calls `BatchProcessCheck` on what it reads from the variable
(`env.closureRead`), not on the batch that was full. -/
def checkLoop (env : Env) : Nat → Int → Int → Nat → List Int → State → List Int × State
  | 0, _, _, _, blocksToProcess, s => (blocksToProcess, s)
  | fuel + 1, i, last, started, blocksToProcess, s =>
    if i ≤ last then
      let batch := blocksToProcess ++ [i]
      if batch.length = batchSize then
        checkLoop env fuel (i + 1) last (started + 1) []
          (BatchProcessCheck (env.closureRead started batch) s)
      else
        checkLoop env fuel (i + 1) last started batch s
    else (blocksToProcess, s)

/-- Method `Monitor.CheckRedisTaskQueue`.  The result is `none` when the loop
over the block numbers cannot end: its bound is the largest `int`, so that
`i <= last` holds for every `i`.  The goroutine for the rest of the numbers
after the loop reads the variable when nothing changes it any more. -/
def CheckRedisTaskQueue (env : Env) (s : State) : Option State :=
  let s1 := { s with all := sunion (sunion s.consumed s.noConsumed) s.consuming }
  let all_block_numbers := s1.all
  if all_block_numbers.length = 0 then some s1
  else
    let consuming_block_numbers := s1.consuming
    let moved := env.smove s1.consuming s1.noConsumed consuming_block_numbers
    let s2 := { s1 with consuming := moved.1, noConsumed := moved.2 }
    let s3 := { s2 with consuming := [] }
    let sorted := sortStrings all_block_numbers
    let first_block_number := firstOf sorted
    let last_block_number := lastOf sorted
    if parseInt last_block_number = maxInt64 then none
    else
      let r := checkLoop env
        (parseInt last_block_number - Atoi first_block_number + 1).toNat
        (Atoi first_block_number) (parseInt last_block_number) 0 [] s3
      let s4 := if 0 < r.1.length then BatchProcessCheck r.1 r.2 else r.2
      some (diffRepair s4)

/-- The loop of `CheckAllBlockNumberIsContinue` that collects
`missingBlockNumber`: every `i` of the range that is the value of no member. -/
def missingLoop : Nat → Int → Int → List String → List Int → List Int
  | 0, _, _, _, missingBlockNumber => missingBlockNumber
  | fuel + 1, i, last, all_block_numbers, missingBlockNumber =>
    if i ≤ last then
      let found := all_block_numbers.any (fun num => decide (i = parseInt num))
      if !found then
        missingLoop fuel (i + 1) last all_block_numbers (missingBlockNumber ++ [i])
      else
        missingLoop fuel (i + 1) last all_block_numbers missingBlockNumber
    else missingBlockNumber

/-- Method `Monitor.CheckAllBlockNumberIsContinue` (gap fill); `none` when its
loop cannot end, as for `CheckRedisTaskQueue`. -/
def CheckAllBlockNumberIsContinue (s : State) : Option State :=
  let all_block_numbers := s.all
  if all_block_numbers.length = 0 then some s
  else
    let sorted := sortStrings all_block_numbers
    let first_block_number := firstOf sorted
    let last_block_number := lastOf sorted
    if parseInt last_block_number = maxInt64 then none
    else
      let missingBlockNumber :=
        missingLoop (parseInt last_block_number - Atoi first_block_number + 1).toNat
          (Atoi first_block_number) (parseInt last_block_number) sorted []
      let s1 := missingBlockNumber.foldl
        (fun st blockNumber => { st with all := sadd st.all (itoa blockNumber) }) s
      if 0 < missingBlockNumber.length then some (diffRepair s1) else some s1

/-! ## Consumer (workers.go) -/

/-- Lower-case hexadecimal digit of a value below 16. -/
def hexDigit (n : Nat) : Char :=
  if n < 10 then Char.ofNat (48 + n) else Char.ofNat (87 + n)

/-- Two hexadecimal digits for every byte. -/
def hexChars : List Nat → List Char
  | [] => []
  | b :: bs => hexDigit (b / 16 % 16) :: hexDigit (b % 16) :: hexChars bs

/-- Function `hex.EncodeToString`. -/
def EncodeToString (bytes : List Nat) : String := String.mk (hexChars bytes)

/-- Method `Address.Hex`: the text `0x` and the 40 hexadecimal digits of the
address, their letters cased by the checksum. -/
def AddressHex (env : Env) (a : Address) : String :=
  String.mk ('0' :: 'x' :: env.keccakCase (hexChars a.bytes))

/-- The record `txObj` that `ProcessBlock` builds for the transaction `tx` of
`block`. -/
def buildRecord (env : Env) (blockNumber : Nat) (block : Block) (tx : Tx) : Transaction :=
  let bytes4Data := if 4 < tx.Data.length then tx.Data.take 4 else tx.Data
  let toAddr := match tx.To with
    | some a => a
    | none => zeroAddress
  { Hash := tx.Hash
    BlockNumber := blockNumber
    BlockHash := block.Hash
    From := AddressHex env tx.Sender
    To := AddressHex env toAddr
    Value := itoa tx.Value
    Nonce := tx.Nonce
    Byte4Data := EncodeToString bytes4Data
    Timestamp := env.now
    TxType := (tx.TxType : Int)
    ChainID := 1
    Confirmations := 0
    BlockTxs := (block.Transactions.length : Int)
    GasPrice := itoa tx.GasPrice
    TransactionFee := itoa (toInt64 tx.Gas * 1) }

/-- Command HSET of one field. -/
def hset (m : List (String × String)) (field value : String) : List (String × String) :=
  if m.any (fun e => decide (e.1 = field)) then
    m.map (fun e => if e.1 = field then (field, value) else e)
  else m ++ [(field, value)]

/-- Command HDEL of one field. -/
def hdel (m : List (String × String)) (field : String) : List (String × String) :=
  m.filter (fun e => decide (e.1 ≠ field))

/-- The loop `for _, tx := range block.Transactions()` of `ProcessBlock`: the
record of every transaction is stored under its hash in TRANSACTIONS. -/
def storeTransactions (env : Env) (blockNumber : Nat) (block : Block) :
    List Tx → State → State
  | [], s => s
  | tx :: rest, s =>
    let txObj := buildRecord env blockNumber block tx
    storeTransactions env blockNumber block rest
      { s with transactions := hset s.transactions txObj.Hash (env.marshal txObj) }

/-- Method `Worker.ProcessBlock`: the returned error (`none` for nil) and the
state it leaves. -/
def ProcessBlock (env : Env) (blockNumber : Nat) (s : State) : Option String × State :=
  match env.provider with
  | none => (some "provider is nil", s)
  | some blockByNumber =>
    match blockByNumber (toInt64 blockNumber) with
    | none => (some ("block is nil," ++ Sprint blockNumber), s)
    | some block =>
      let s1 := storeTransactions env blockNumber block block.Transactions s
      let isExists := sismember s1.consuming (Sprint blockNumber)
      if !isExists then (none, s1)
      else
        let s2 := { s1 with consuming := srem s1.consuming (Sprint blockNumber) }
        let s3 := { s2 with consumed := sadd s2.consumed (Sprint blockNumber) }
        (none, s3)

/-- One turn of the loop of a drain goroutine, on the member `blockNumber` that
SPOP has just taken out of CONSUMING (the state is the one after the pop). -/
def handlePopped (env : Env) (blockNumber : String) (s : State) : State :=
  let blockNumberUint64 := ParseUint blockNumber
  (ProcessBlock env blockNumberUint64 s).2

/-- The loop of one goroutine of `ProcessConsumimgBlock`: SPOP a member of
CONSUMING (here the head of the list), stop on the empty text, else process the
block.  `fuel` bounds the turns. -/
def drainWorker (env : Env) : Nat → State → State
  | 0, s => s
  | fuel + 1, s =>
    match s.consuming with
    | [] => s
    | blockNumber :: rest =>
      let s1 := { s with consuming := rest }
      if blockNumber = "" then s1
      else drainWorker env fuel (handlePopped env blockNumber s1)

/-- Method `Worker.ProcessConsumimgBlock`: ten goroutines, each running the
drain loop until it pops nothing. -/
def ProcessConsumimgBlock (env : Env) (s : State) : State :=
  (List.range 10).foldl (fun st _ => drainWorker env (st.consuming.length + 1) st) s

/-! ## Flusher (workers.go) -/

/-- Upsert of block number `i` with `consume_status = 1` into the table
`EVMBlcockNumber`. -/
def upsertConsumed (table : List BlockNumberRow) (i : Int) : List BlockNumberRow :=
  if table.any (fun r => decide (r.blockNumber = i)) then
    table.map (fun r => if r.blockNumber = i then { r with consumeStatus := 1 } else r)
  else table ++ [⟨i, 1⟩]

/-- The variables of the loop of `SaveBlockNumberToDB`: the pending `ops`, the
number of database transactions run so far, the table, the numbers queued on
the two SREM pipelines and the numbers whose upsert committed. -/
structure FlushLoop where
  ops : List Int
  executed : Nat
  table : List BlockNumberRow
  pipeline : List Int
  upserted : List Int
deriving DecidableEq, Repr

/-- Run of `w.DB.Prisma.Transaction(ops...)`; when it does not commit the code
logs the error and goes on. -/
def execOps (env : Env) (ops : List Int) (st : FlushLoop) : FlushLoop :=
  if env.dbExec st.executed then
    { st with ops := [], executed := st.executed + 1,
              table := ops.foldl upsertConsumed st.table,
              upserted := st.upserted ++ ops }
  else
    { st with ops := [], executed := st.executed + 1 }

/-- The loop `for i := firstBlockNumber; i <= lastBlockNumber; i++` of
`SaveBlockNumberToDB`. -/
def saveLoop (env : Env) : Nat → Int → Int → FlushLoop → FlushLoop
  | 0, _, _, st => st
  | fuel + 1, i, last, st =>
    if i ≤ last then
      let ops := st.ops ++ [i]
      let st1 := if ops.length = 10000 then execOps env ops st else { st with ops := ops }
      saveLoop env fuel (i + 1) last { st1 with pipeline := st1.pipeline ++ [i] }
    else st

/-- What a call of `SaveBlockNumberToDB` did: the state it leaves and the
block numbers whose upsert with `consume_status = 1` committed. -/
structure FlushResult where
  state : State
  upserted : List Int
deriving DecidableEq, Repr

/-- Method `Worker.SaveBlockNumberToDB`; `none` when its loop cannot end (the
bound is the largest `int`). -/
def SaveBlockNumberToDB (env : Env) (s : State) : Option FlushResult :=
  let allBlockNumbers := s.all
  let consumedBlockNumbers := s.consumed
  if allBlockNumbers.length = 0 then some ⟨s, []⟩
  else if allBlockNumbers.length ≠ consumedBlockNumbers.length then some ⟨s, []⟩
  else
    let sorted := sortStrings consumedBlockNumbers
    let firstBlockNumber := Atoi (firstOf sorted)
    let lastBlockNumber := Atoi (lastOf sorted)
    if wrapInt64 (wrapInt64 (lastBlockNumber - firstBlockNumber) + 1) ≠ (sorted.length : Int) then
      some ⟨s, []⟩
    else if lastBlockNumber = maxInt64 then none
    else
      let st := saveLoop env (lastBlockNumber - firstBlockNumber + 1).toNat
        firstBlockNumber lastBlockNumber ⟨[], 0, s.blockNumberTable, [], []⟩
      let st1 := if 0 < st.ops.length then execOps env st.ops st else st
      some ⟨{ s with all := st1.pipeline.foldl (fun set i => srem set (itoa i)) s.all,
                     consumed := st1.pipeline.foldl (fun set i => srem set (itoa i)) s.consumed,
                     blockNumberTable := st1.table }, st1.upserted⟩

/-- How a call of `SaveTransactionToDB` ended. -/
inductive FlushOutcome where
  | scanError
  | fetchError
  | decodeError
  | emptyScan
  | dbFailed
  | flushed (ops : List TransactionHashScan)
deriving DecidableEq, Repr

/-- Command HGET on the list of entries. -/
def hget (m : List (String × String)) (field : String) : Option String :=
  (m.find? (fun e => decide (e.1 = field))).map Prod.snd

/-- Assignment `data[field] = value` on a Go map. -/
def mapSet (data : List (String × TransactionHashScan)) (field : String)
    (value : TransactionHashScan) : List (String × TransactionHashScan) :=
  if data.any (fun e => decide (e.1 = field)) then
    data.map (fun e => if e.1 = field then (field, value) else e)
  else data ++ [(field, value)]

/-- Decoding of the values of one batch of fields into `data`; `none` when
`json.Unmarshal` fails.  A field without a value keeps the zero record. -/
def decodeBatch (env : Env) (m : List (String × String)) :
    List String → List (String × TransactionHashScan) →
    Option (List (String × TransactionHashScan))
  | [], data => some data
  | field :: rest, data =>
    match hget m field with
    | some jsonStr =>
      match env.unmarshal jsonStr with
      | some transactionHashScan => decodeBatch env m rest (mapSet data field transactionHashScan)
      | none => none
    | none => decodeBatch env m rest (mapSet data field zeroTransactionHashScan)

/-- The loop `for i := 0; i < len(keys); i += batchSize` of
`SaveTransactionToDB`; the left result tells how it failed.  HMGET without a
field is rejected by the store. -/
def collectLoop (env : Env) (m : List (String × String)) (keys : List String)
    (batchSize : Nat) : Nat → Nat → List (String × TransactionHashScan) →
    FlushOutcome ⊕ List (String × TransactionHashScan)
  | 0, _, data => Sum.inr data
  | fuel + 1, i, data =>
    if i < keys.length then
      let endIndex := if keys.length < i + batchSize then keys.length else i + batchSize
      let batchFields := (keys.drop i).take (endIndex - i)
      if batchFields.length = 0 then Sum.inl FlushOutcome.fetchError
      else
        match decodeBatch env m batchFields data with
        | none => Sum.inl FlushOutcome.decodeError
        | some data1 => collectLoop env m keys batchSize fuel (i + batchSize) data1
    else Sum.inr data

/-- The loop `for _, tx := range data` of `SaveTransactionToDB`, which stops
once `count >= rowsNum`: the records it puts into `ops` (and whose hash it
queues on the HDEL pipeline). -/
def opsLoop (rowsNum : Nat) : List (String × TransactionHashScan) → Nat →
    List TransactionHashScan → List TransactionHashScan
  | [], _, ops => ops
  | e :: rest, count, ops =>
    if rowsNum ≤ count + 1 then ops ++ [e.2] else opsLoop rowsNum rest (count + 1) (ops ++ [e.2])

/-- Upsert of a record into the table `EVMTransaction`, keyed by hash and
block number; the update part is empty. -/
def upsertTransaction (table : List TransactionHashScan) (tx : TransactionHashScan) :
    List TransactionHashScan :=
  if table.any (fun r => decide (r.Hash = tx.Hash ∧ r.BlockNumber = tx.BlockNumber)) then table
  else table ++ [tx]

/-- Method `Worker.SaveTransactionToDB` with page size `rowsNum`: how the call
ended and the state it leaves.  A database transaction that does not commit
makes the code panic; the deferred `recover` ends the call there. -/
def SaveTransactionToDB (env : Env) (rowsNum : Nat) (s : State) : FlushOutcome × State :=
  match env.hscan s.transactions s.cursor rowsNum with
  | none => (FlushOutcome.scanError, s)
  | some (keys, newCursor) =>
    match collectLoop env s.transactions keys rowsNum keys.length 0 [] with
    | Sum.inl e => (e, s)
    | Sum.inr data =>
      if data.length = 0 then (FlushOutcome.emptyScan, { s with cursor := 0 })
      else
        let ops := opsLoop rowsNum (env.mapOrder data) 0 []
        if env.dbExec 0 then
          (FlushOutcome.flushed ops,
            { s with transactionTable := ops.foldl upsertTransaction s.transactionTable,
                     transactions := ops.foldl (fun m tx => hdel m tx.Hash) s.transactions,
                     cursor := newCursor })
        else (FlushOutcome.dbFailed, s)

/-! ## Producer liveness (monitor.go) -/

/-- Method `Monitor.CheckWatcherIsWorking`.  `latestBlock` is what
`m.Provider.BlockByNumber(ctx, nil)` gives: the number of the newest block,
`none` for an error.  On an empty ALL the index expression panics; the
deferred `recover` ends the call, which then returns `false`. -/
def CheckWatcherIsWorking (latestBlock : Option Nat) (s : State) : Bool :=
  let all_block_numbers := s.all
  let sorted := sortStrings all_block_numbers
  if sorted.length = 0 then false
  else
    let last_block_number := lastOf sorted
    match latestBlock with
    | none => false
    | some number =>
      if parseInt last_block_number < toInt64 number then false else true

/-! ## Startup reconciliation (workers.go) -/

/-- Order of `OrderBy(block_number desc)`: `a` stands no later than `b`. -/
def newerEq (a b : BlockNumberRow) : Prop := b.blockNumber ≤ a.blockNumber

instance newerEqDecidable : DecidableRel newerEq :=
  fun a b => Int.decLe b.blockNumber a.blockNumber

/-- Query `FindMany().Take(n).OrderBy(block_number desc)`. -/
def newestRows (n : Nat) (table : List BlockNumberRow) : List BlockNumberRow :=
  (table.insertionSort newerEq).take n

/-- Modelled from the spec: the schema of the table is not among the sources;
a row created without a status has `consume_status = 0`.  Upsert of block
number `i` with an empty update part. -/
def upsertCreate (table : List BlockNumberRow) (i : Int) : List BlockNumberRow :=
  if table.any (fun r => decide (r.blockNumber = i)) then table else table ++ [⟨i, 0⟩]

/-- The variables of the two write loops of `DumpRedisTaskToDBAndSplitTask`:
the pending operations, the number of database transactions run so far and the
table. -/
structure DumpLoop where
  ops : List Int
  executed : Nat
  table : List BlockNumberRow
deriving DecidableEq, Repr

/-- The loop `for i := first_block_number; i <= last_block_number; i++` of
`DumpRedisTaskToDBAndSplitTask`; `none` when a transaction does not commit
(`log.Fatal`). -/
def dumpLoop (env : Env) : Nat → Int → Int → DumpLoop → Option DumpLoop
  | 0, _, _, st => some st
  | fuel + 1, i, last, st =>
    if i ≤ last then
      let ops := st.ops ++ [i]
      if ops.length = 10000 then
        if env.dbExec st.executed then
          dumpLoop env fuel (i + 1) last ⟨[], st.executed + 1, ops.foldl upsertCreate st.table⟩
        else none
      else dumpLoop env fuel (i + 1) last { st with ops := ops }
    else some st

/-- An environment for evaluating the code on examples: no chain client, the
malformed `SMove` leaves both sets as they are, every scan is empty, every
database transaction commits and a goroutine started for a full batch runs
after the loop has set the variable to nil. -/
def env0 : Env where
  provider := none
  now := 0
  keccakCase := fun cs => cs
  marshal := fun t => t.Hash
  unmarshal := fun _ => none
  smove := fun src dst _ => (src, dst)
  hscan := fun _ _ _ => some ([], 0)
  mapOrder := fun d => d
  dbExec := fun _ => true
  closureRead := fun _ _ => []

/-- A state with the four sets given and everything else empty. -/
def mkState (all noConsumed consuming consumed : List String) : State :=
  ⟨all, noConsumed, consuming, consumed, [], 0, [], []⟩

/-! ## Properties stated by the specification -/

/-- The union of CONSUMED, NO_CONSUMED and CONSUMING that the redistribute
pass stores into ALL. -/
def unionAll (s : State) : List String :=
  sunion (sunion s.consumed s.noConsumed) s.consuming

/-- The loop of the redistribute pass ends: there is nothing to do, or the
bound of the loop is below the largest `int`. -/
def passEnds (s : State) : Prop :=
  unionAll s = [] ∨ parseInt (lastOf (sortStrings (unionAll s))) ≠ maxInt64

/-- ALL is the union of the three stage sets and these are pairwise
disjoint. -/
def Partitioned (s : State) : Prop :=
  (∀ x, x ∈ s.all ↔ (x ∈ s.noConsumed ∨ x ∈ s.consuming ∨ x ∈ s.consumed)) ∧
  (∀ x, x ∈ s.noConsumed → x ∉ s.consuming) ∧
  (∀ x, x ∈ s.noConsumed → x ∉ s.consumed) ∧
  (∀ x, x ∈ s.consuming → x ∉ s.consumed)

/-- A set of decimal block numbers is contiguous: every integer between the
values of two members is the value of a member. -/
def Contiguous (set : List String) : Prop :=
  ∀ k : Int, (∃ a ∈ set, parseInt a ≤ k) → (∃ b ∈ set, k ≤ parseInt b) →
    ∃ c ∈ set, parseInt c = k

/-- Numerically smallest value of the members of a set (`0` for the empty
set). -/
def numericMin (set : List String) : Int :=
  match set.map parseInt with
  | [] => 0
  | v :: vs => vs.foldl min v

/-- Numerically largest value of the members of a set (`0` for the empty
set). -/
def numericMax (set : List String) : Int :=
  match set.map parseInt with
  | [] => 0
  | v :: vs => vs.foldl max v

/-- The fields (hashes) of the hash TRANSACTIONS. -/
def txFields (s : State) : List String := s.transactions.map Prod.fst

/-- Go string comparison `a <= b`. -/
def lexLe (a b : String) : Prop := strLess b a = false

instance lexLeDecidable : DecidableRel lexLe :=
  fun a b => inferInstanceAs (Decidable (strLess b a = false))

/-- Value of a list of decimal digits read after the value `acc`. -/
def decVal (cs : List Char) (acc : Nat) : Nat :=
  cs.foldl (fun a c => a * 10 + (c.toNat - 48)) acc

/-- Every character is a decimal digit. -/
def IsDigits (cs : List Char) : Prop := ∀ c ∈ cs, 48 ≤ c.toNat ∧ c.toNat ≤ 57

/-- A canonical decimal numeral: the decimal text of a natural number. -/
def Canonical (x : String) : Prop := ∃ n : Nat, x = Sprint n

/-- Two states have the same members in each of the four block-number sets. -/
def SameSets (a b : State) : Prop :=
  ∀ x, (x ∈ a.all ↔ x ∈ b.all) ∧ (x ∈ a.noConsumed ↔ x ∈ b.noConsumed) ∧
    (x ∈ a.consuming ↔ x ∈ b.consuming) ∧ (x ∈ a.consumed ↔ x ∈ b.consumed)

/-! ## Sample data -/

/-- A transfer of block 200. -/
def sampleTx : Tx :=
  { Hash := "0xa1", ChainId := 1, Nonce := 7, Value := 1000, GasPrice := 30, Gas := 21000,
    Data := [], To := some ⟨List.replicate 20 17⟩, TxType := 2, Sender := ⟨List.replicate 20 34⟩ }

/-- A block with one transaction. -/
def sampleBlock : Block := ⟨"0xb200", [sampleTx]⟩

/-- The chain client returns `sampleBlock` for every number. -/
def envBlock : Env := { env0 with provider := some (fun _ => some sampleBlock) }

/-- The chain client returns a nil block for every number. -/
def envNilBlock : Env := { env0 with provider := some (fun _ => none) }

/-- Every goroutine started for a full batch runs before the loop sets the
variable to nil and reads the batch. -/
def envReadBatch : Env := { env0 with closureRead := fun _ batch => batch }

/-- No database transaction commits. -/
def envDbDown : Env := { env0 with dbExec := fun _ => false }

/-- A scan returns every field followed by its value, as HSCAN does; a stored
value decodes to the record whose hash is that text. -/
def envScan (dbUp : Bool) : Env :=
  { env0 with
    hscan := fun m _ _ => some (m.foldr (fun e acc => e.1 :: e.2 :: acc) [], 0)
    unmarshal := fun jsonStr => some { zeroTransactionHashScan with Hash := jsonStr }
    dbExec := fun _ => dbUp }

/-- A state whose only content is the hash TRANSACTIONS and the cursor. -/
def txState (transactions : List (String × String)) (cursor : Nat) : State :=
  ⟨[], [], [], [], transactions, cursor, [], []⟩

/-- A contract creation: `sampleTx` without a recipient. -/
def creationTx : Tx := { sampleTx with To := none, Data := [96, 128, 96, 64, 82] }

theorem mem_sadd (set : List String) (x y : String) :
    y ∈ sadd set x ↔ (y ∈ set ∨ y = x) := by
  unfold sadd
  split
  · constructor
    · intro h; exact Or.inl h
    · rintro (h | h)
      · exact h
      · subst h; assumption
  · simp

theorem mem_srem (set : List String) (x y : String) :
    y ∈ srem set x ↔ (y ∈ set ∧ y ≠ x) := by
  simp [srem]

theorem mem_sdiff (a b : List String) (y : String) :
    y ∈ sdiff a b ↔ (y ∈ a ∧ y ∉ b) := by
  simp [sdiff]

theorem mem_sunion (a b : List String) (y : String) :
    y ∈ sunion a b ↔ (y ∈ a ∨ y ∈ b) := by
  unfold sunion
  induction b generalizing a with
  | nil => simp
  | cons x xs ih =>
    rw [List.foldl_cons, ih, mem_sadd]
    simp only [List.mem_cons]
    tauto

theorem mem_unionAll (s : State) (x : String) :
    x ∈ unionAll s ↔ (x ∈ s.noConsumed ∨ x ∈ s.consuming ∨ x ∈ s.consumed) := by
  unfold unionAll
  rw [mem_sunion, mem_sunion]
  tauto

theorem mem_foldl_sadd_itoa (ns : List Int) (set : List String) (x : String) :
    x ∈ ns.foldl (fun acc n => sadd acc (itoa n)) set ↔ (x ∈ set ∨ ∃ n ∈ ns, x = itoa n) := by
  induction ns generalizing set with
  | nil => simp
  | cons n ns ih =>
    rw [List.foldl_cons, ih, mem_sadd]
    simp only [List.mem_cons, exists_eq_or_imp]
    tauto

/-! ## The fuel of the loops is enough

Each loop is run with as many turns as its range has numbers; more fuel gives
the same result. -/

theorem checkLoop_fuel (env : Env) (fuel fuel' : Nat) (i last : Int) (started : Nat)
    (batch : List Int) (s : State)
    (h : (last - i + 1).toNat ≤ fuel) (h' : (last - i + 1).toNat ≤ fuel') :
    checkLoop env fuel i last started batch s = checkLoop env fuel' i last started batch s := by
  induction fuel generalizing fuel' i started batch s with
  | zero =>
    have hi : ¬ i ≤ last := by omega
    cases fuel' with
    | zero => rfl
    | succ f => simp [checkLoop, hi]
  | succ fuel ih =>
    cases fuel' with
    | zero =>
      have hi : ¬ i ≤ last := by omega
      simp [checkLoop, hi]
    | succ f =>
      unfold checkLoop
      by_cases hi : i ≤ last
      · simp only [hi, if_true]
        split
        · exact ih _ _ _ _ _ (by omega) (by omega)
        · exact ih _ _ _ _ _ (by omega) (by omega)
      · simp [hi]

theorem missingLoop_fuel (fuel fuel' : Nat) (i last : Int) (all : List String)
    (missing : List Int)
    (h : (last - i + 1).toNat ≤ fuel) (h' : (last - i + 1).toNat ≤ fuel') :
    missingLoop fuel i last all missing = missingLoop fuel' i last all missing := by
  induction fuel generalizing fuel' i missing with
  | zero =>
    have hi : ¬ i ≤ last := by omega
    cases fuel' with
    | zero => rfl
    | succ f => simp [missingLoop, hi]
  | succ fuel ih =>
    cases fuel' with
    | zero =>
      have hi : ¬ i ≤ last := by omega
      simp [missingLoop, hi]
    | succ f =>
      unfold missingLoop
      by_cases hi : i ≤ last
      · simp only [hi, if_true]
        split
        · exact ih _ _ _ (by omega) (by omega)
        · exact ih _ _ _ (by omega) (by omega)
      · simp [hi]

theorem saveLoop_fuel (env : Env) (fuel fuel' : Nat) (i last : Int) (st : FlushLoop)
    (h : (last - i + 1).toNat ≤ fuel) (h' : (last - i + 1).toNat ≤ fuel') :
    saveLoop env fuel i last st = saveLoop env fuel' i last st := by
  induction fuel generalizing fuel' i st with
  | zero =>
    have hi : ¬ i ≤ last := by omega
    cases fuel' with
    | zero => rfl
    | succ f => simp [saveLoop, hi]
  | succ fuel ih =>
    cases fuel' with
    | zero =>
      have hi : ¬ i ≤ last := by omega
      simp [saveLoop, hi]
    | succ f =>
      unfold saveLoop
      by_cases hi : i ≤ last
      · simp only [hi, if_true]
        exact ih _ _ _ (by omega) (by omega)
      · simp [hi]

theorem dumpLoop_fuel (env : Env) (fuel fuel' : Nat) (i last : Int) (st : DumpLoop)
    (h : (last - i + 1).toNat ≤ fuel) (h' : (last - i + 1).toNat ≤ fuel') :
    dumpLoop env fuel i last st = dumpLoop env fuel' i last st := by
  induction fuel generalizing fuel' i st with
  | zero =>
    have hi : ¬ i ≤ last := by omega
    cases fuel' with
    | zero => rfl
    | succ f => simp [dumpLoop, hi]
  | succ fuel ih =>
    cases fuel' with
    | zero =>
      have hi : ¬ i ≤ last := by omega
      simp [dumpLoop, hi]
    | succ f =>
      unfold dumpLoop
      by_cases hi : i ≤ last
      · simp only [hi, if_true]
        split
        · split
          · exact ih _ _ _ (by omega) (by omega)
          · rfl
        · exact ih _ _ _ (by omega) (by omega)
      · simp [hi]

theorem storeTransactions_consuming (env : Env) (n : Nat) (block : Block) (txs : List Tx)
    (s : State) : (storeTransactions env n block txs s).consuming = s.consuming := by
  induction txs generalizing s with
  | nil => rfl
  | cons tx txs ih =>
    unfold storeTransactions
    exact ih _

theorem handlePopped_consuming_length (env : Env) (blockNumber : String) (s : State) :
    (handlePopped env blockNumber s).consuming.length ≤ s.consuming.length := by
  unfold handlePopped ProcessBlock
  cases env.provider with
  | none => exact Nat.le_refl _
  | some blockByNumber =>
    simp only
    cases blockByNumber (toInt64 (ParseUint blockNumber)) with
    | none => exact Nat.le_refl _
    | some block =>
      simp only
      split
      · rw [storeTransactions_consuming]
      · simp only [srem]
        rw [← storeTransactions_consuming env (ParseUint blockNumber) block block.Transactions s]
        exact List.length_filter_le _ _

theorem drainWorker_fuel (env : Env) (fuel fuel' : Nat) (s : State)
    (h : s.consuming.length < fuel) (h' : s.consuming.length < fuel') :
    drainWorker env fuel s = drainWorker env fuel' s := by
  induction fuel generalizing fuel' s with
  | zero => exact absurd h (Nat.not_lt_zero _)
  | succ fuel ih =>
    cases fuel' with
    | zero => exact absurd h' (Nat.not_lt_zero _)
    | succ f =>
      unfold drainWorker
      cases hc : s.consuming with
      | nil => rfl
      | cons blockNumber rest =>
        simp only
        split
        · rfl
        · have hl := handlePopped_consuming_length env blockNumber
            { s with consuming := rest }
          rw [hc] at h h'
          simp only [List.length_cons] at h h'
          simp only at hl
          exact ih _ _ (by omega) (by omega)

/-! ## The redistribute pass -/

theorem batchProcessCheck_consuming (b : List Int) (s : State) :
    (BatchProcessCheck b s).consuming = s.consuming := rfl

theorem batchProcessCheck_consumed (b : List Int) (s : State) :
    (BatchProcessCheck b s).consumed = s.consumed := rfl

theorem batchProcessCheck_all_mono (b : List Int) (s : State) (x : String)
    (h : x ∈ s.all) : x ∈ (BatchProcessCheck b s).all := by
  unfold BatchProcessCheck
  simp only
  rw [mem_foldl_sadd_itoa]
  exact Or.inl h

theorem checkLoop_keeps (env : Env) (fuel : Nat) (i last : Int) (started : Nat)
    (batch : List Int) (s : State) :
    (checkLoop env fuel i last started batch s).2.consuming = s.consuming ∧
    (checkLoop env fuel i last started batch s).2.consumed = s.consumed ∧
    ∀ x, x ∈ s.all → x ∈ (checkLoop env fuel i last started batch s).2.all := by
  induction fuel generalizing i started batch s with
  | zero => simp [checkLoop]
  | succ fuel ih =>
    unfold checkLoop
    split
    · simp only
      split
      · obtain ⟨h1, h2, h3⟩ := ih (i + 1) (started + 1) []
          (BatchProcessCheck (env.closureRead started (batch ++ [i])) s)
        refine ⟨?_, ?_, ?_⟩
        · rw [h1, batchProcessCheck_consuming]
        · rw [h2, batchProcessCheck_consumed]
        · intro x hx
          exact h3 x (batchProcessCheck_all_mono _ _ _ hx)
      · exact ih (i + 1) started (batch ++ [i]) s
    · simp

/-- What a completed redistribute pass leaves: CONSUMING is empty, CONSUMED is
untouched, ALL contains the union of the three sets, and NO_CONSUMED is ALL
without CONSUMED. -/
theorem checkRedisTaskQueue_result (env : Env) (s s' : State)
    (h : CheckRedisTaskQueue env s = some s') :
    s'.consuming = [] ∧ s'.consumed = s.consumed ∧
    (∀ x, x ∈ unionAll s → x ∈ s'.all) ∧
    (∀ x, x ∈ s'.noConsumed ↔ (x ∈ s'.all ∧ x ∉ s'.consumed)) := by
  unfold CheckRedisTaskQueue at h
  simp only at h
  split at h
  · rename_i hlen
    have hnil : unionAll s = [] := List.length_eq_zero.mp hlen
    have hmem : ∀ x, x ∉ unionAll s := by
      intro x; rw [hnil]; exact List.not_mem_nil x
    have hc : s.consuming = [] := by
      apply List.eq_nil_iff_forall_not_mem.mpr
      intro x hx
      exact hmem x ((mem_unionAll s x).mpr (Or.inr (Or.inl hx)))
    have hn : s.noConsumed = [] := by
      apply List.eq_nil_iff_forall_not_mem.mpr
      intro x hx
      exact hmem x ((mem_unionAll s x).mpr (Or.inl hx))
    injection h with h
    subst h
    refine ⟨hc, rfl, ?_, ?_⟩
    · intro x hx; exact absurd hx (hmem x)
    · intro x
      constructor
      · intro hx
        have hx' : x ∈ s.noConsumed := hx
        rw [hn] at hx'
        exact absurd hx' (List.not_mem_nil x)
      · rintro ⟨hx, _⟩; exact absurd hx (hmem x)
  · split at h
    · exact absurd h (by simp)
    · injection h with h
      subst h
      generalize hr : checkLoop _ _ _ _ _ _ _ = r
      have hk := checkLoop_keeps env
        (parseInt (lastOf (sortStrings (unionAll s))) -
          Atoi (firstOf (sortStrings (unionAll s))) + 1).toNat
        (Atoi (firstOf (sortStrings (unionAll s))))
        (parseInt (lastOf (sortStrings (unionAll s)))) 0 []
        { all := unionAll s,
          noConsumed := (env.smove s.consuming s.noConsumed s.consuming).2,
          consuming := [], consumed := s.consumed, transactions := s.transactions,
          cursor := s.cursor, blockNumberTable := s.blockNumberTable,
          transactionTable := s.transactionTable }
      change checkLoop _ _ _ _ _ _ _ = r at hr
      unfold unionAll at hk
      rw [hr] at hk
      obtain ⟨h1, h2, h3⟩ := hk
      simp only at h1 h2 h3
      have key : ∀ t : State, t.consuming = [] → t.consumed = s.consumed →
          (∀ x, x ∈ unionAll s → x ∈ t.all) →
          (diffRepair t).consuming = [] ∧ (diffRepair t).consumed = s.consumed ∧
          (∀ x, x ∈ unionAll s → x ∈ (diffRepair t).all) ∧
          (∀ x, x ∈ (diffRepair t).noConsumed ↔
            (x ∈ (diffRepair t).all ∧ x ∉ (diffRepair t).consumed)) := by
        intro t t1 t2 t3
        refine ⟨t1, t2, t3, ?_⟩
        intro x
        unfold diffRepair
        simp only [mem_sdiff, t1, List.not_mem_nil, not_false_eq_true, and_true]
      split
      · apply key
        · rw [batchProcessCheck_consuming]; exact h1
        · rw [batchProcessCheck_consumed]; exact h2
        · intro x hx
          exact batchProcessCheck_all_mono _ _ _ (h3 x hx)
      · exact key r.2 h1 h2 h3

/-- The redistribute pass returns a state exactly when its loop ends. -/
theorem checkRedisTaskQueue_isSome (env : Env) (s : State) :
    passEnds s ↔ ∃ s', CheckRedisTaskQueue env s = some s' := by
  unfold passEnds CheckRedisTaskQueue
  simp only
  by_cases hlen : (unionAll s).length = 0
  · have hnil : unionAll s = [] := List.length_eq_zero.mp hlen
    unfold unionAll at hlen hnil
    simp [hlen, hnil, unionAll]
  · have hne : unionAll s ≠ [] := fun h => hlen (by rw [h]; rfl)
    unfold unionAll at hlen hne
    simp only [hlen, if_false, unionAll, hne, false_or]
    split
    · rename_i hm
      simp [hm]
    · rename_i hm
      simp [hm]

/-- C1: a completed run of `Monitor.CheckRedisTaskQueue` leaves ALL equal to
the union of NO_CONSUMED, CONSUMING and CONSUMED, and these three pairwise
disjoint; the run completes whenever the loop of the pass ends. -/
theorem checkRedisTaskQueue_partitioned (env : Env) (s : State) :
    (passEnds s → ∃ s', CheckRedisTaskQueue env s = some s') ∧
    ∀ s', CheckRedisTaskQueue env s = some s' → Partitioned s' := by
  refine ⟨(checkRedisTaskQueue_isSome env s).mp, ?_⟩
  intro s' h
  obtain ⟨h1, h2, h3, h4⟩ := checkRedisTaskQueue_result env s s' h
  refine ⟨?_, ?_, ?_, ?_⟩
  · intro x
    rw [h4 x, h1]
    constructor
    · intro hx
      by_cases hc : x ∈ s'.consumed
      · exact Or.inr (Or.inr hc)
      · exact Or.inl ⟨hx, hc⟩
    · rintro (⟨hx, _⟩ | hx | hx)
      · exact hx
      · exact absurd hx (List.not_mem_nil x)
      · apply h3
        rw [mem_unionAll]
        rw [h2] at hx
        exact Or.inr (Or.inr hx)
  · intro x _
    rw [h1]
    exact List.not_mem_nil x
  · intro x hx
    exact ((h4 x).mp hx).2
  · intro x hx
    rw [h1] at hx
    exact absurd hx (List.not_mem_nil x)

/-- Witness of C1 on the state NO_CONSUMED = {300}, CONSUMING = {302},
CONSUMED = {299}. -/
theorem checkRedisTaskQueue_partitioned_witness :
    Partitioned (mkState ["299", "300", "302", "301"] ["300", "302", "301"] [] ["299"]) :=
  (checkRedisTaskQueue_partitioned env0 (mkState [] ["300"] ["302"] ["299"])).2 _ (by decide)

/-- C3: a completed run of `Monitor.CheckRedisTaskQueue` leaves CONSUMING
empty and every member of the former CONSUMING that is not in CONSUMED is a
member of NO_CONSUMED; the run completes whenever the loop of the pass ends. -/
theorem checkRedisTaskQueue_requeues (env : Env) (s : State) :
    (passEnds s → ∃ s', CheckRedisTaskQueue env s = some s') ∧
    ∀ s', CheckRedisTaskQueue env s = some s' →
      s'.consuming = [] ∧ ∀ x, x ∈ s.consuming → x ∉ s.consumed → x ∈ s'.noConsumed := by
  refine ⟨(checkRedisTaskQueue_isSome env s).mp, ?_⟩
  intro s' h
  obtain ⟨h1, h2, h3, h4⟩ := checkRedisTaskQueue_result env s s' h
  refine ⟨h1, ?_⟩
  intro x hx hnc
  rw [h4 x, h2]
  refine ⟨h3 x ?_, hnc⟩
  rw [mem_unionAll]
  exact Or.inr (Or.inl hx)

/-- Witness of C3: block 200 is in flight, the pass returns it to
NO_CONSUMED. -/
theorem checkRedisTaskQueue_requeues_witness :
    (mkState ["200"] ["200"] [] []).consuming = [] ∧
    ∀ x, x ∈ (mkState ["200"] [] ["200"] []).consuming →
      x ∉ (mkState ["200"] [] ["200"] []).consumed →
      x ∈ (mkState ["200"] ["200"] [] []).noConsumed :=
  (checkRedisTaskQueue_requeues env0 (mkState ["200"] [] ["200"] [])).2 _ (by decide)

/-! ## Gap fill -/

/-- C2 (failing input): on ALL = {9, 11} `Monitor.CheckAllBlockNumberIsContinue`
takes the range from the members first and last in text order, 11 and 9, adds
nothing and leaves ALL with the gap 10. -/
theorem checkAllBlockNumberIsContinue_leaves_gap :
    CheckAllBlockNumberIsContinue (mkState ["9", "11"] [] [] []) =
      some (mkState ["9", "11"] [] [] []) ∧
    ¬ Contiguous (mkState ["9", "11"] [] [] []).all := by
  refine ⟨by decide, ?_⟩
  intro h
  obtain ⟨c, hc, hv⟩ := h 10 ⟨"9", by decide, by decide⟩ ⟨"11", by decide, by decide⟩
  have hc' : c = "9" ∨ c = "11" := by
    simpa [mkState] using hc
  rcases hc' with rfl | rfl
  · exact absurd hv (by decide)
  · exact absurd hv (by decide)

/-! ## Consumer -/

theorem storeTransactions_sets (env : Env) (n : Nat) (block : Block) (txs : List Tx)
    (s : State) :
    (storeTransactions env n block txs s).all = s.all ∧
    (storeTransactions env n block txs s).noConsumed = s.noConsumed ∧
    (storeTransactions env n block txs s).consuming = s.consuming ∧
    (storeTransactions env n block txs s).consumed = s.consumed := by
  induction txs generalizing s with
  | nil => simp [storeTransactions]
  | cons tx txs ih =>
    unfold storeTransactions
    exact ih _

/-- C4 (failing input): block 200 is in CONSUMING when the drain starts and its
body is fetched; the drain pops it, stores its transaction, finds it absent
from CONSUMING at the re-check and leaves it in neither CONSUMING nor
CONSUMED. -/
theorem processConsumimgBlock_drops_block :
    (ProcessConsumimgBlock envBlock (mkState ["200"] [] ["200"] [])).consumed = [] ∧
    (ProcessConsumimgBlock envBlock (mkState ["200"] [] ["200"] [])).consuming = [] ∧
    (ProcessConsumimgBlock envBlock (mkState ["200"] [] ["200"] [])).noConsumed = [] ∧
    txFields (ProcessConsumimgBlock envBlock (mkState ["200"] [] ["200"] [])) = ["0xa1"] := by
  decide

/-- C5: when the block body of `n` is fetched, `Worker.ProcessBlock` returns
nil and leaves ALL and NO_CONSUMED as they are; if `n` is a member of CONSUMING
it is afterwards out of CONSUMING and in CONSUMED, every other member staying
where it was; if it is not, CONSUMING and CONSUMED are unchanged. -/
theorem processBlock_marks_consumed (env : Env) (blockByNumber : Int → Option Block)
    (n : Nat) (block : Block) (s : State)
    (hp : env.provider = some blockByNumber)
    (hb : blockByNumber (toInt64 n) = some block) :
    (ProcessBlock env n s).1 = none ∧
    (ProcessBlock env n s).2.all = s.all ∧
    (ProcessBlock env n s).2.noConsumed = s.noConsumed ∧
    (Sprint n ∈ s.consuming →
      Sprint n ∉ (ProcessBlock env n s).2.consuming ∧
      Sprint n ∈ (ProcessBlock env n s).2.consumed ∧
      ∀ x, x ≠ Sprint n →
        ((x ∈ (ProcessBlock env n s).2.consuming ↔ x ∈ s.consuming) ∧
         (x ∈ (ProcessBlock env n s).2.consumed ↔ x ∈ s.consumed))) ∧
    (Sprint n ∉ s.consuming →
      (ProcessBlock env n s).2.consuming = s.consuming ∧
      (ProcessBlock env n s).2.consumed = s.consumed) := by
  obtain ⟨h1, h2, h3, h4⟩ := storeTransactions_sets env n block block.Transactions s
  unfold ProcessBlock
  simp only [hp, hb, sismember]
  generalize storeTransactions env n block block.Transactions s = s1 at h1 h2 h3 h4
  by_cases hm : Sprint n ∈ s.consuming
  · have hm' : Sprint n ∈ s1.consuming := by rw [h3]; exact hm
    simp only [hm', decide_True, Bool.not_true, Bool.false_eq_true, if_false]
    refine ⟨trivial, h1, h2, ?_, fun h => absurd hm h⟩
    intro _
    refine ⟨?_, ?_, ?_⟩
    · rw [mem_srem]; exact fun h => h.2 rfl
    · rw [mem_sadd]; exact Or.inr rfl
    · intro x hx
      rw [mem_srem, mem_sadd, h3, h4]
      constructor
      · exact ⟨fun h => h.1, fun h => ⟨h, hx⟩⟩
      · exact ⟨fun h => h.resolve_right hx, fun h => Or.inl h⟩
  · have hm' : Sprint n ∉ s1.consuming := by rw [h3]; exact hm
    simp only [hm', decide_False, Bool.not_false, if_true]
    exact ⟨trivial, h1, h2, fun h => absurd h hm, fun _ => ⟨h3, h4⟩⟩

/-- Witness of C5: block 200 is claimed and fetched, block 201 is waiting. -/
theorem processBlock_marks_consumed_witness :
    (ProcessBlock envBlock 200 (mkState ["200", "201"] ["201"] ["200"] [])).1 = none ∧
    (ProcessBlock envBlock 200 (mkState ["200", "201"] ["201"] ["200"] [])).2.consumed
      = ["200"] ∧
    (ProcessBlock envBlock 200 (mkState ["200", "201"] ["201"] ["200"] [])).2.consuming = [] ∧
    (ProcessBlock envBlock 200 (mkState ["200", "201"] ["201"] ["200"] [])).2.noConsumed
      = ["201"] :=
  ⟨(processBlock_marks_consumed envBlock (fun _ => some sampleBlock) 200 sampleBlock
      (mkState ["200", "201"] ["201"] ["200"] []) rfl rfl).1, by decide, by decide, by decide⟩

/-- C6 (failing input): block 200 is in CONSUMING when the drain starts and the
fetch of its body yields nil.  The drain has popped it, `ProcessBlock` returns
the error and nothing puts 200 back: afterwards it is in none of NO_CONSUMED,
CONSUMING and CONSUMED, and the Monitor pass that follows leaves every set
empty. -/
theorem drain_nil_block_lost :
    ProcessConsumimgBlock envNilBlock (mkState ["200"] [] ["200"] []) =
      mkState ["200"] [] [] [] ∧
    "200" ∉ (ProcessConsumimgBlock envNilBlock (mkState ["200"] [] ["200"] [])).noConsumed ∧
    CheckRedisTaskQueue envNilBlock (mkState ["200"] [] [] []) =
      some (mkState [] [] [] []) := by
  decide

/-! ## Flusher -/

/-- C7 (failing input): ALL = CONSUMED = {1, 3, 20} is not contiguous
(20 − 1 + 1 ≠ 3), yet `Worker.SaveBlockNumberToDB` does not skip: in text order
the first member is 1 and the last is 3, so it upserts 1, 2 and 3 with
`consume_status = 1`, although 2 is not a member of CONSUMED, and removes 1
and 3 from ALL and CONSUMED. -/
theorem saveBlockNumberToDB_flushes_gap :
    SaveBlockNumberToDB env0 (mkState ["1", "3", "20"] [] [] ["1", "3", "20"]) =
      some ⟨⟨["20"], [], [], ["20"], [], 0, [⟨1, 1⟩, ⟨2, 1⟩, ⟨3, 1⟩], []⟩, [1, 2, 3]⟩ ∧
    numericMax ["1", "3", "20"] - numericMin ["1", "3", "20"] + 1 ≠
      ((["1", "3", "20"] : List String).length : Int) ∧
    "2" ∉ (mkState ["1", "3", "20"] [] [] ["1", "3", "20"]).consumed := by
  decide

/-- C8 (failing input): ALL = CONSUMED = {9, 10} is contiguous and of equal
size, yet `Worker.SaveBlockNumberToDB` skips the flush: in text order the first
member is 10 and the last is 9, so its test computes 9 − 10 + 1 ≠ 2; nothing is
upserted and both sets stay as they are. -/
theorem saveBlockNumberToDB_skips_contiguous :
    SaveBlockNumberToDB env0 (mkState ["9", "10"] [] [] ["9", "10"]) =
      some ⟨mkState ["9", "10"] [] [] ["9", "10"], []⟩ ∧
    numericMax ["9", "10"] - numericMin ["9", "10"] + 1 =
      ((["9", "10"] : List String).length : Int) := by
  decide

/-- C9 (failing input): ALL = CONSUMED = {5} and the database transaction does
not commit; `Worker.SaveBlockNumberToDB` still removes 5 from ALL and from
CONSUMED, and the table `EVMBlcockNumber` has no row for it. -/
theorem saveBlockNumberToDB_removes_after_failure :
    SaveBlockNumberToDB envDbDown (mkState ["5"] [] [] ["5"]) =
      some ⟨mkState [] [] [] [], []⟩ := by
  decide

theorem mem_fields_hdel (m : List (String × String)) (field k : String) :
    k ∈ (hdel m field).map Prod.fst ↔ (k ∈ m.map Prod.fst ∧ k ≠ field) := by
  unfold hdel
  simp only [List.mem_map, List.mem_filter, decide_eq_true_eq]
  constructor
  · rintro ⟨e, ⟨he, hne⟩, rfl⟩
    exact ⟨⟨e, he, rfl⟩, hne⟩
  · rintro ⟨⟨e, he, rfl⟩, hne⟩
    exact ⟨e, ⟨he, hne⟩, rfl⟩

theorem mem_fields_foldl_hdel (ops : List TransactionHashScan) (m : List (String × String))
    (k : String) :
    k ∈ (ops.foldl (fun m tx => hdel m tx.Hash) m).map Prod.fst ↔
      (k ∈ m.map Prod.fst ∧ ∀ tx ∈ ops, tx.Hash ≠ k) := by
  induction ops generalizing m with
  | nil => simp
  | cons tx ops ih =>
    rw [List.foldl_cons, ih, mem_fields_hdel]
    simp only [List.mem_cons, forall_eq_or_imp]
    constructor
    · rintro ⟨⟨h1, h2⟩, h3⟩
      exact ⟨h1, fun h => h2 h.symm, h3⟩
    · rintro ⟨h1, h2, h3⟩
      exact ⟨⟨h1, fun h => h2 h.symm⟩, h3⟩

theorem upsertTransaction_mono (table : List TransactionHashScan)
    (tx row : TransactionHashScan) (h : row ∈ table) : row ∈ upsertTransaction table tx := by
  unfold upsertTransaction
  split
  · exact h
  · exact List.mem_append_left _ h

theorem upsertTransaction_has (table : List TransactionHashScan) (tx : TransactionHashScan) :
    ∃ row ∈ upsertTransaction table tx,
      row.Hash = tx.Hash ∧ row.BlockNumber = tx.BlockNumber := by
  unfold upsertTransaction
  split
  · rename_i h
    rw [List.any_eq_true] at h
    obtain ⟨row, hrow, hkey⟩ := h
    exact ⟨row, hrow, of_decide_eq_true hkey⟩
  · exact ⟨tx, List.mem_append_right _ (List.mem_singleton_self tx), rfl, rfl⟩

theorem foldl_upsertTransaction_mono (ops : List TransactionHashScan)
    (table : List TransactionHashScan) (row : TransactionHashScan) (h : row ∈ table) :
    row ∈ ops.foldl upsertTransaction table := by
  induction ops generalizing table with
  | nil => exact h
  | cons tx ops ih =>
    rw [List.foldl_cons]
    exact ih _ (upsertTransaction_mono table tx row h)

theorem foldl_upsertTransaction_has (ops : List TransactionHashScan)
    (table : List TransactionHashScan) (tx : TransactionHashScan) (h : tx ∈ ops) :
    ∃ row ∈ ops.foldl upsertTransaction table,
      row.Hash = tx.Hash ∧ row.BlockNumber = tx.BlockNumber := by
  induction ops generalizing table with
  | nil => exact absurd h (List.not_mem_nil tx)
  | cons op ops ih =>
    rw [List.foldl_cons]
    rcases List.mem_cons.mp h with rfl | h'
    · obtain ⟨row, hrow, hkey⟩ := upsertTransaction_has table tx
      exact ⟨row, foldl_upsertTransaction_mono ops _ row hrow, hkey⟩
    · exact ih _ h'

/-- C10: in `Worker.SaveTransactionToDB`, when the database transaction does
not commit the call leaves the state, TRANSACTIONS and the scan cursor
included, as it was; and a hash that the call removes from TRANSACTIONS is the
hash of a record of the committed upsert of that call, whose row is then in
the table. -/
theorem saveTransactionToDB_removes_only_upserted (env : Env) (rowsNum : Nat) (s : State) :
    ((SaveTransactionToDB env rowsNum s).1 = FlushOutcome.dbFailed →
      (SaveTransactionToDB env rowsNum s).2 = s) ∧
    (env.dbExec 0 = false →
      (SaveTransactionToDB env rowsNum s).2.transactions = s.transactions) ∧
    ∀ h, h ∈ txFields s → h ∉ txFields (SaveTransactionToDB env rowsNum s).2 →
      ∃ ops, (SaveTransactionToDB env rowsNum s).1 = FlushOutcome.flushed ops ∧
        env.dbExec 0 = true ∧
        ∃ tx ∈ ops, tx.Hash = h ∧
          ∃ row ∈ (SaveTransactionToDB env rowsNum s).2.transactionTable,
            row.Hash = tx.Hash ∧ row.BlockNumber = tx.BlockNumber := by
  unfold SaveTransactionToDB txFields
  cases hscan : env.hscan s.transactions s.cursor rowsNum with
  | none =>
    refine ⟨fun _ => rfl, fun _ => rfl, ?_⟩
    intro h h1 h2
    exact absurd h1 h2
  | some r =>
    obtain ⟨keys, newCursor⟩ := r
    simp only
    cases hcol : collectLoop env s.transactions keys rowsNum keys.length 0 [] with
    | inl e =>
      refine ⟨fun _ => rfl, fun _ => rfl, ?_⟩
      intro h h1 h2
      exact absurd h1 h2
    | inr data =>
      simp only
      by_cases hlen : data.length = 0
      · simp only [hlen, if_true]
        refine ⟨fun hf => (by cases hf), fun _ => trivial, ?_⟩
        intro h h1 h2
        exact absurd h1 h2
      · simp only [hlen, if_false]
        cases hdb : env.dbExec 0 with
        | false =>
          simp only [Bool.false_eq_true, if_false]
          refine ⟨fun _ => trivial, fun _ => trivial, ?_⟩
          intro h h1 h2
          exact absurd h1 h2
        | true =>
          simp only [if_true]
          refine ⟨fun hf => (by cases hf), fun hf => (by cases hf), ?_⟩
          intro h h1 h2
          refine ⟨_, rfl, trivial, ?_⟩
          have h3 : ¬ ∀ tx ∈ opsLoop rowsNum (env.mapOrder data) 0 [], tx.Hash ≠ h := by
            intro hall
            exact h2 ((mem_fields_foldl_hdel _ _ _).mpr ⟨h1, hall⟩)
          push_neg at h3
          obtain ⟨tx, htx, hh⟩ := h3
          exact ⟨tx, htx, hh, foldl_upsertTransaction_has _ _ tx htx⟩

/-- Witness of C10: one stored record and a database that is down, the call
ends in the failed transaction and the state is as before; with the database
up the same call removes the hash, and what the theorem says of it holds. -/
theorem saveTransactionToDB_removes_only_upserted_witness :
    (SaveTransactionToDB (envScan false) 10 (txState [("0xa1", "0xa1")] 5)).2 =
      txState [("0xa1", "0xa1")] 5 ∧
    ∃ ops, (SaveTransactionToDB (envScan true) 10 (txState [("0xa1", "0xa1")] 5)).1 =
        FlushOutcome.flushed ops ∧
      (envScan true).dbExec 0 = true ∧
      ∃ tx ∈ ops, tx.Hash = "0xa1" ∧
        ∃ row ∈ (SaveTransactionToDB (envScan true) 10
            (txState [("0xa1", "0xa1")] 5)).2.transactionTable,
          row.Hash = tx.Hash ∧ row.BlockNumber = tx.BlockNumber :=
  ⟨(saveTransactionToDB_removes_only_upserted (envScan false) 10
      (txState [("0xa1", "0xa1")] 5)).1 (by decide),
   (saveTransactionToDB_removes_only_upserted (envScan true) 10
      (txState [("0xa1", "0xa1")] 5)).2.2 "0xa1" (by decide) (by decide)⟩

/-! ## The transaction record -/

/-- C11 (failing input): for a transaction with gas price 30 and gas 21000 the
field `TransactionFee` that `Worker.ProcessBlock` builds is the text of the gas
alone, 21000, and not that of the product 630000: `Mul` overwrites its receiver
`tx.GasPrice()` with the product of its two arguments, the gas and 1. -/
theorem buildRecord_fee_is_gas :
    (buildRecord env0 200 sampleBlock sampleTx).TransactionFee = "21000" ∧
    itoa (sampleTx.GasPrice * (sampleTx.Gas : Int)) = "630000" ∧
    (buildRecord env0 200 sampleBlock sampleTx).TransactionFee ≠
      itoa (sampleTx.GasPrice * (sampleTx.Gas : Int)) := by
  decide

/-- C12 (counterexample): for a contract creation the field `To` of the record
is not the empty string. -/
theorem buildRecord_creation_to_nonempty :
    creationTx.To = none ∧ (buildRecord env0 200 sampleBlock creationTx).To ≠ "" := by
  decide

/-- C12 (amended): for a transaction without recipient the field `To` of the
record that `Worker.ProcessBlock` builds is `Address.Hex` of the zero address:
never empty, and the text `0x` with forty zeros when the checksum casing leaves
the digits as they are. -/
theorem buildRecord_creation_to (env : Env) (blockNumber : Nat) (block : Block) (tx : Tx)
    (h : tx.To = none) :
    (buildRecord env blockNumber block tx).To = AddressHex env zeroAddress ∧
    (buildRecord env blockNumber block tx).To ≠ "" ∧
    (env.keccakCase (List.replicate 40 '0') = List.replicate 40 '0' →
      (buildRecord env blockNumber block tx).To =
        "0x0000000000000000000000000000000000000000") := by
  have hto : (buildRecord env blockNumber block tx).To = AddressHex env zeroAddress := by
    unfold buildRecord
    simp only [h]
  refine ⟨hto, ?_, ?_⟩
  · rw [hto]
    unfold AddressHex
    intro hempty
    have hdata := congrArg String.data hempty
    simp at hdata
  · intro hcase
    rw [hto]
    unfold AddressHex
    have hz : hexChars zeroAddress.bytes = List.replicate 40 '0' := by decide
    rw [hz, hcase]
    decide

/-- Witness of C12 (amended): the contract creation `creationTx`. -/
theorem buildRecord_creation_to_witness :
    (buildRecord env0 200 sampleBlock creationTx).To = AddressHex env0 zeroAddress ∧
    (buildRecord env0 200 sampleBlock creationTx).To ≠ "" ∧
    (env0.keccakCase (List.replicate 40 '0') = List.replicate 40 '0' →
      (buildRecord env0 200 sampleBlock creationTx).To =
        "0x0000000000000000000000000000000000000000") :=
  buildRecord_creation_to env0 200 sampleBlock creationTx (by decide)

theorem hexChars_length (bytes : List Nat) : (hexChars bytes).length = 2 * bytes.length := by
  induction bytes with
  | nil => rfl
  | cons b bs ih =>
    simp only [hexChars, List.length_cons, ih]
    omega

/-- C13: the field `Byte4Data` of the record that `Worker.ProcessBlock` builds
is the hex encoding of the first four bytes of the call data when there are at
least four and of the whole call data when there are fewer; it has at most
eight characters. -/
theorem buildRecord_byte4 (env : Env) (blockNumber : Nat) (block : Block) (tx : Tx) :
    (4 ≤ tx.Data.length →
      (buildRecord env blockNumber block tx).Byte4Data = EncodeToString (tx.Data.take 4)) ∧
    (tx.Data.length < 4 →
      (buildRecord env blockNumber block tx).Byte4Data = EncodeToString tx.Data) ∧
    (buildRecord env blockNumber block tx).Byte4Data.length ≤ 8 := by
  have hb : (buildRecord env blockNumber block tx).Byte4Data =
      EncodeToString (if 4 < tx.Data.length then tx.Data.take 4 else tx.Data) := by
    unfold buildRecord
    rfl
  refine ⟨?_, ?_, ?_⟩
  · intro h4
    rw [hb]
    by_cases hlt : 4 < tx.Data.length
    · rw [if_pos hlt]
    · rw [if_neg hlt, List.take_of_length_le (by omega)]
  · intro h4
    rw [hb, if_neg (by omega)]
  · rw [hb]
    unfold EncodeToString
    rw [String.length_mk, hexChars_length]
    by_cases hlt : 4 < tx.Data.length
    · rw [if_pos hlt, List.length_take]
      omega
    · rw [if_neg hlt]
      omega

/-- Witness of C13: the five bytes of call data of `creationTx` give the eight
characters of the first four, the empty call data of `sampleTx` gives the empty
text. -/
theorem buildRecord_byte4_witness :
    (buildRecord env0 200 sampleBlock creationTx).Byte4Data =
      EncodeToString (creationTx.Data.take 4) ∧
    (buildRecord env0 200 sampleBlock sampleTx).Byte4Data = EncodeToString sampleTx.Data :=
  ⟨(buildRecord_byte4 env0 200 sampleBlock creationTx).1 (by decide),
   (buildRecord_byte4 env0 200 sampleBlock sampleTx).2.1 (by decide)⟩

/-! ## Producer liveness -/

/-- C14 (failing input): ALL = {9, 10} and the chain tip is 10, so max(ALL) is
not below the tip; `Monitor.CheckWatcherIsWorking` takes the member last in text
order, 9, finds 9 < 10 and returns false. -/
theorem checkWatcherIsWorking_wrong_max :
    CheckWatcherIsWorking (some 10) (mkState ["9", "10"] [] [] []) = false ∧
    ¬ (numericMax (mkState ["9", "10"] [] [] []).all < 10) := by
  decide

/-! ## Sorted strings keep their members -/

theorem mem_insertSorted (x y : String) (l : List String) :
    y ∈ insertSorted x l ↔ (y = x ∨ y ∈ l) := by
  induction l with
  | nil => simp [insertSorted]
  | cons z zs ih =>
    unfold insertSorted
    split
    · simp only [List.mem_cons, ih]
      tauto
    · simp only [List.mem_cons]

theorem mem_sortStrings (y : String) (l : List String) : y ∈ sortStrings l ↔ y ∈ l := by
  induction l with
  | nil => simp [sortStrings]
  | cons z zs ih =>
    unfold sortStrings
    rw [mem_insertSorted, ih, List.mem_cons]

theorem sortStrings_ne_nil (l : List String) (h : l ≠ []) : sortStrings l ≠ [] := by
  cases l with
  | nil => exact absurd rfl h
  | cons z zs =>
    intro hs
    have hz : z ∈ sortStrings (z :: zs) := (mem_sortStrings z (z :: zs)).mpr (by simp)
    rw [hs] at hz
    exact absurd hz (List.not_mem_nil z)

theorem getLastD_mem (l : List String) (h : l ≠ []) : l.getLastD "" ∈ l := by
  cases l with
  | nil => exact absurd rfl h
  | cons z zs =>
    rw [List.getLastD_cons]
    induction zs generalizing z with
    | nil => simp
    | cons w ws ih =>
      rw [List.getLastD_cons]
      exact List.mem_cons_of_mem _ (ih w (by simp))

theorem lastOf_sortStrings_mem (l : List String) (h : l ≠ []) :
    lastOf (sortStrings l) ∈ l := by
  rw [← mem_sortStrings]
  exact getLastD_mem _ (sortStrings_ne_nil l h)

theorem firstOf_sortStrings_mem (l : List String) (h : l ≠ []) :
    firstOf (sortStrings l) ∈ l := by
  rw [← mem_sortStrings]
  have hs := sortStrings_ne_nil l h
  unfold firstOf
  cases hl : sortStrings l with
  | nil => exact absurd hl hs
  | cons z zs => simp

/-! ## Numeric minimum and maximum -/

theorem foldl_max_ge (vs : List Int) (v : Int) :
    v ≤ vs.foldl max v ∧ ∀ w ∈ vs, w ≤ vs.foldl max v := by
  induction vs generalizing v with
  | nil => simp
  | cons u us ih =>
    rw [List.foldl_cons]
    obtain ⟨h1, h2⟩ := ih (max v u)
    refine ⟨le_trans (le_max_left v u) h1, ?_⟩
    intro w hw
    rcases List.mem_cons.mp hw with rfl | hw'
    · exact le_trans (le_max_right v w) h1
    · exact h2 w hw'

theorem foldl_min_le (vs : List Int) (v : Int) :
    vs.foldl min v ≤ v ∧ ∀ w ∈ vs, vs.foldl min v ≤ w := by
  induction vs generalizing v with
  | nil => simp
  | cons u us ih =>
    rw [List.foldl_cons]
    obtain ⟨h1, h2⟩ := ih (min v u)
    refine ⟨le_trans h1 (min_le_left v u), ?_⟩
    intro w hw
    rcases List.mem_cons.mp hw with rfl | hw'
    · exact le_trans h1 (min_le_right v w)
    · exact h2 w hw'

theorem le_numericMax (set : List String) (x : String) (h : x ∈ set) :
    parseInt x ≤ numericMax set := by
  unfold numericMax
  cases set with
  | nil => exact absurd h (List.not_mem_nil x)
  | cons y ys =>
    simp only [List.map_cons]
    obtain ⟨h1, h2⟩ := foldl_max_ge (ys.map parseInt) (parseInt y)
    rcases List.mem_cons.mp h with rfl | h'
    · exact h1
    · exact h2 _ (List.mem_map_of_mem parseInt h')

theorem numericMin_le (set : List String) (x : String) (h : x ∈ set) :
    numericMin set ≤ parseInt x := by
  unfold numericMin
  cases set with
  | nil => exact absurd h (List.not_mem_nil x)
  | cons y ys =>
    simp only [List.map_cons]
    obtain ⟨h1, h2⟩ := foldl_min_le (ys.map parseInt) (parseInt y)
    rcases List.mem_cons.mp h with rfl | h'
    · exact h1
    · exact h2 _ (List.mem_map_of_mem parseInt h')

/-! ## Startup reconciliation -/

/-- The query for the newest rows returns rows of the table, as many as asked
for or all of them, and no row left out has a higher number than one
returned. -/
theorem newestRows_spec (n : Nat) (table : List BlockNumberRow) :
    (∀ r ∈ newestRows n table, r ∈ table) ∧
    (newestRows n table).length = min n table.length ∧
    ∃ older, (newestRows n table ++ older).Perm table ∧
      ∀ r ∈ newestRows n table, ∀ o ∈ older, o.blockNumber ≤ r.blockNumber := by
  haveI : IsTotal BlockNumberRow newerEq := ⟨fun a b => Int.le_total b.blockNumber a.blockNumber⟩
  haveI : IsTrans BlockNumberRow newerEq :=
    ⟨fun a b c hab hbc => Int.le_trans hbc hab⟩
  have hperm := List.perm_insertionSort newerEq table
  have hsorted := List.sorted_insertionSort newerEq table
  unfold newestRows
  refine ⟨?_, ?_, (table.insertionSort newerEq).drop n, ?_, ?_⟩
  · intro r hr
    exact hperm.subset (List.mem_of_mem_take hr)
  · rw [List.length_take, hperm.length_eq]
  · rw [List.take_append_drop]
    exact hperm
  · intro r hr o ho
    have hs : ((table.insertionSort newerEq).take n ++
        (table.insertionSort newerEq).drop n).Pairwise newerEq := by
      rw [List.take_append_drop]
      exact hsorted
    exact (List.pairwise_append.mp hs).2.2 r hr o ho

theorem char_eq_of_toNat_eq (a b : Char) (h : a.toNat = b.toNat) : a = b := by
  rw [← Char.ofNat_toNat a, ← Char.ofNat_toNat b, h]

theorem charsLess_irrefl (a : List Char) : charsLess a a = false := by
  induction a with
  | nil => rfl
  | cons c cs ih =>
    unfold charsLess
    simp [ih]

theorem charsLess_asymm (a b : List Char) (h : charsLess a b = true) :
    charsLess b a = false := by
  induction a generalizing b with
  | nil =>
    cases b with
    | nil => rfl
    | cons d ds => rfl
  | cons c cs ih =>
    cases b with
    | nil => simp [charsLess] at h
    | cons d ds =>
      unfold charsLess at h ⊢
      by_cases h1 : c.toNat < d.toNat
      · have h2 : ¬ d.toNat < c.toNat := by omega
        simp [h1, h2]
      · by_cases h2 : d.toNat < c.toNat
        · simp [h1, h2] at h
        · simp only [h1, h2, if_false] at h ⊢
          exact ih ds h

theorem charsLess_trichotomy (a b : List Char) (h1 : charsLess a b = false)
    (h2 : charsLess b a = false) : a = b := by
  induction a generalizing b with
  | nil =>
    cases b with
    | nil => rfl
    | cons d ds => simp [charsLess] at h1
  | cons c cs ih =>
    cases b with
    | nil => simp [charsLess] at h2
    | cons d ds =>
      unfold charsLess at h1 h2
      by_cases hcd : c.toNat < d.toNat
      · simp [hcd] at h1
      · by_cases hdc : d.toNat < c.toNat
        · simp [hdc] at h2
        · simp only [hcd, hdc, if_false] at h1 h2
          have hc : c = d := char_eq_of_toNat_eq c d (by omega)
          rw [hc, ih ds h1 h2]

theorem charsLess_trans (a b c : List Char) (h1 : charsLess a b = true)
    (h2 : charsLess b c = true) : charsLess a c = true := by
  induction a generalizing b c with
  | nil =>
    cases b with
    | nil => simp [charsLess] at h1
    | cons y ys =>
      cases c with
      | nil => simp [charsLess] at h2
      | cons z zs => rfl
  | cons x xs ih =>
    cases b with
    | nil => simp [charsLess] at h1
    | cons y ys =>
      cases c with
      | nil => simp [charsLess] at h2
      | cons z zs =>
        unfold charsLess at h1 h2 ⊢
        by_cases hxy : x.toNat < y.toNat
        · by_cases hyz : y.toNat < z.toNat
          · have hxz : x.toNat < z.toNat := by omega
            simp [hxz]
          · by_cases hzy : z.toNat < y.toNat
            · simp [hyz, hzy] at h2
            · have hxz : x.toNat < z.toNat := by omega
              simp [hxz]
        · by_cases hyx : y.toNat < x.toNat
          · simp [hxy, hyx] at h1
          · simp only [hxy, hyx, if_false] at h1
            by_cases hyz : y.toNat < z.toNat
            · have hxz : x.toNat < z.toNat := by omega
              simp [hxz]
            · by_cases hzy : z.toNat < y.toNat
              · simp [hyz, hzy] at h2
              · simp only [hyz, hzy, if_false] at h2
                have hxz : ¬ x.toNat < z.toNat := by omega
                have hzx : ¬ z.toNat < x.toNat := by omega
                simp only [hxz, hzx, if_false]
                exact ih ys zs h1 h2

theorem lexLe_refl (a : String) : lexLe a a := charsLess_irrefl a.data

theorem lexLe_total (a b : String) : lexLe a b ∨ lexLe b a := by
  unfold lexLe strLess
  by_cases h : charsLess b.data a.data = true
  · exact Or.inr (charsLess_asymm _ _ h)
  · exact Or.inl (by simpa using h)

theorem lexLe_antisymm (a b : String) (h1 : lexLe a b) (h2 : lexLe b a) : a = b := by
  have hd : a.data = b.data := charsLess_trichotomy a.data b.data h2 h1
  cases a
  cases b
  simp only at hd
  rw [hd]

theorem lexLe_trans (a b c : String) (h1 : lexLe a b) (h2 : lexLe b c) : lexLe a c := by
  unfold lexLe strLess at h1 h2 ⊢
  by_cases hca : charsLess c.data a.data = true
  · exfalso
    by_cases hab : charsLess a.data b.data = true
    · have hcb := charsLess_trans _ _ _ hca hab
      rw [hcb] at h2
      exact Bool.noConfusion h2
    · have hab' : charsLess a.data b.data = false := by simpa using hab
      have heq : a.data = b.data := charsLess_trichotomy _ _ hab' h1
      rw [heq] at hca
      rw [hca] at h2
      exact Bool.noConfusion h2
  · simpa using hca

theorem insertSorted_eq (x : String) (l : List String) :
    insertSorted x l = l.orderedInsert lexLe x := by
  induction l with
  | nil => rfl
  | cons y ys ih =>
    unfold insertSorted
    rw [List.orderedInsert]
    by_cases h : strLess y x = true
    · have hn : ¬ lexLe x y := by
        unfold lexLe
        rw [h]
        exact Bool.noConfusion
      rw [if_pos h, if_neg hn, ih]
    · have hl : lexLe x y := by
        unfold lexLe
        simpa using h
      rw [if_neg h, if_pos hl]

theorem sortStrings_eq (l : List String) : sortStrings l = l.insertionSort lexLe := by
  induction l with
  | nil => rfl
  | cons y ys ih =>
    unfold sortStrings
    rw [List.insertionSort, insertSorted_eq, ih]

theorem sortStrings_sorted (l : List String) : (sortStrings l).Pairwise lexLe := by
  haveI : IsTotal String lexLe := ⟨lexLe_total⟩
  haveI : IsTrans String lexLe := ⟨lexLe_trans⟩
  rw [sortStrings_eq]
  exact List.sorted_insertionSort lexLe l

theorem pairwise_le_getLastD (l : List String) (h : l.Pairwise lexLe) :
    ∀ x ∈ l, lexLe x (l.getLastD "") := by
  induction l with
  | nil => intro x hx; exact absurd hx (List.not_mem_nil x)
  | cons a t ih =>
    intro x hx
    rw [List.getLastD_cons]
    cases t with
    | nil =>
      simp only [List.mem_singleton] at hx
      rw [hx]
      exact lexLe_refl a
    | cons b u =>
      have ht := (List.pairwise_cons.mp h).2
      have hlast : (b :: u).getLastD a = (b :: u).getLastD "" := by
        rw [List.getLastD_cons, List.getLastD_cons]
      rw [hlast]
      rcases List.mem_cons.mp hx with rfl | hx'
      · exact (List.pairwise_cons.mp h).1 _ (getLastD_mem (b :: u) (by simp))
      · exact ih ht x hx'

/-- The first string of the sorted list is a smallest member. -/
theorem firstOf_sortStrings_le (l : List String) (x : String) (hx : x ∈ l) :
    lexLe (firstOf (sortStrings l)) x := by
  have hs := sortStrings_sorted l
  have hx' : x ∈ sortStrings l := (mem_sortStrings x l).mpr hx
  unfold firstOf
  cases hl : sortStrings l with
  | nil => rw [hl] at hx'; exact absurd hx' (List.not_mem_nil x)
  | cons a t =>
    rw [hl] at hs hx'
    simp only [List.headD_cons]
    rcases List.mem_cons.mp hx' with rfl | ht
    · exact lexLe_refl _
    · exact (List.pairwise_cons.mp hs).1 x ht

/-- The last string of the sorted list is a largest member. -/
theorem le_lastOf_sortStrings (l : List String) (x : String) (hx : x ∈ l) :
    lexLe x (lastOf (sortStrings l)) :=
  pairwise_le_getLastD (sortStrings l) (sortStrings_sorted l) x ((mem_sortStrings x l).mpr hx)

/-! ## Decimal text and its value -/

theorem digitVal_of_digit (c : Char) (h : 48 ≤ c.toNat ∧ c.toNat ≤ 57) :
    digitVal c = some (c.toNat - 48) := by
  unfold digitVal
  rw [if_pos h]

theorem decVal_ge (cs : List Char) (acc : Nat) : acc ≤ decVal cs acc := by
  induction cs generalizing acc with
  | nil => exact Nat.le_refl acc
  | cons c cs ih =>
    have h := ih (acc * 10 + (c.toNat - 48))
    have hd : decVal (c :: cs) acc = decVal cs (acc * 10 + (c.toNat - 48)) := rfl
    rw [hd]
    omega

theorem decVal_append (xs ys : List Char) (acc : Nat) :
    decVal (xs ++ ys) acc = decVal ys (decVal xs acc) := by
  unfold decVal
  rw [List.foldl_append]

theorem decVal_acc (cs : List Char) (acc : Nat) :
    decVal cs acc = acc * 10 ^ cs.length + decVal cs 0 := by
  induction cs generalizing acc with
  | nil => simp [decVal]
  | cons c cs ih =>
    have hd : ∀ a, decVal (c :: cs) a = decVal cs (a * 10 + (c.toNat - 48)) := fun _ => rfl
    rw [hd acc, hd 0, ih (acc * 10 + (c.toNat - 48)), ih (0 * 10 + (c.toNat - 48))]
    rw [List.length_cons, pow_succ]
    ring

theorem decVal_lt (cs : List Char) (h : IsDigits cs) : decVal cs 0 < 10 ^ cs.length := by
  induction cs with
  | nil => simp [decVal]
  | cons c cs ih =>
    have hd : decVal (c :: cs) 0 = decVal cs (0 * 10 + (c.toNat - 48)) := rfl
    have hc := h c (by simp)
    have hcs : IsDigits cs := fun d hd' => h d (List.mem_cons_of_mem c hd')
    have hlt := ih hcs
    rw [hd, decVal_acc, List.length_cons, pow_succ]
    have h9 : 0 * 10 + (c.toNat - 48) ≤ 9 := by omega
    have hmul : (0 * 10 + (c.toNat - 48)) * 10 ^ cs.length ≤ 9 * 10 ^ cs.length :=
      Nat.mul_le_mul_right _ h9
    omega

theorem parseDigits_digits (cs : List Char) (acc : Nat) (h : IsDigits cs)
    (hacc : acc ≤ maxUint64) :
    parseDigits cs acc = some (min (decVal cs acc) maxUint64) := by
  induction cs generalizing acc with
  | nil =>
    unfold parseDigits decVal
    simp only [List.foldl_nil]
    rw [min_eq_left hacc]
  | cons c cs ih =>
    have hc := h c (by simp)
    have hcs : IsDigits cs := fun d hd' => h d (List.mem_cons_of_mem c hd')
    have hd : decVal (c :: cs) acc = decVal cs (acc * 10 + (c.toNat - 48)) := rfl
    unfold parseDigits
    rw [digitVal_of_digit c hc]
    simp only
    by_cases hover : maxUint64 < acc * 10 + (c.toNat - 48)
    · rw [if_pos hover, hd]
      have hge := decVal_ge cs (acc * 10 + (c.toNat - 48))
      rw [min_eq_right (by omega)]
    · rw [if_neg hover, hd]
      exact ih (acc * 10 + (c.toNat - 48)) hcs (by omega)

theorem digitChar_toNat (k : Nat) (hk : k < 10) : (Nat.digitChar k).toNat = 48 + k := by
  interval_cases k <;> rfl

theorem toDigitsCore_spec (fuel n : Nat) (ds : List Char) (h : n < fuel) :
    ∃ pre, Nat.toDigitsCore 10 fuel n ds = pre ++ ds ∧ IsDigits pre ∧ pre ≠ [] ∧
      decVal pre 0 = n := by
  induction fuel generalizing n ds with
  | zero => exact absurd h (Nat.not_lt_zero n)
  | succ fuel ih =>
    have hk : n % 10 < 10 := Nat.mod_lt n (by decide)
    have hdc := digitChar_toNat (n % 10) hk
    unfold Nat.toDigitsCore
    simp only
    by_cases hq : n / 10 = 0
    · rw [if_pos hq]
      refine ⟨[Nat.digitChar (n % 10)], rfl, ?_, by simp, ?_⟩
      · intro c hc
        simp only [List.mem_singleton] at hc
        rw [hc, hdc]
        omega
      · unfold decVal
        simp only [List.foldl_cons, List.foldl_nil]
        rw [hdc]
        omega
    · rw [if_neg hq]
      obtain ⟨pre, hpre, hdig, _, hval⟩ :=
        ih (n / 10) (Nat.digitChar (n % 10) :: ds) (by omega)
      refine ⟨pre ++ [Nat.digitChar (n % 10)], ?_, ?_, by simp, ?_⟩
      · rw [hpre]
        simp
      · intro c hc
        rcases List.mem_append.mp hc with hc' | hc'
        · exact hdig c hc'
        · simp only [List.mem_singleton] at hc'
          rw [hc', hdc]
          omega
      · rw [decVal_append, hval]
        unfold decVal
        simp only [List.foldl_cons, List.foldl_nil]
        rw [hdc]
        omega

/-- The decimal text of a natural number consists of digits, is not empty and
has the number as its value. -/
theorem toDigits_spec (n : Nat) :
    IsDigits (Nat.toDigits 10 n) ∧ Nat.toDigits 10 n ≠ [] ∧
      decVal (Nat.toDigits 10 n) 0 = n := by
  obtain ⟨pre, hpre, hdig, hne, hval⟩ := toDigitsCore_spec (n + 1) n [] (Nat.lt_succ_self n)
  have h : Nat.toDigits 10 n = pre := by
    unfold Nat.toDigits
    rw [hpre, List.append_nil]
  rw [h]
  exact ⟨hdig, hne, hval⟩

theorem Sprint_data (n : Nat) : (Sprint n).data = Nat.toDigits 10 n := rfl

/-- Reading the decimal text of a natural number gives the number back, or the
largest `int` when the number is beyond it. -/
theorem Atoi_Sprint (n : Nat) :
    Atoi (Sprint n) = if 9223372036854775808 ≤ n then maxInt64 else (n : Int) := by
  obtain ⟨hdig, hne, hval⟩ := toDigits_spec n
  unfold Atoi
  rw [Sprint_data]
  cases hcs : Nat.toDigits 10 n with
  | nil => exact absurd hcs hne
  | cons c cs =>
    rw [hcs] at hdig hval
    have hc := hdig c (by simp)
    have h1 : c ≠ '-' := by
      intro he
      rw [he] at hc
      exact absurd hc (by decide)
    have h2 : c ≠ '+' := by
      intro he
      rw [he] at hc
      exact absurd hc (by decide)
    simp only [h1, h2, if_false]
    unfold parseMagnitude
    simp only
    rw [parseDigits_digits (c :: cs) 0 hdig (Nat.zero_le _), hval]
    simp only
    by_cases hbig : 9223372036854775808 ≤ n
    · have hm : (9223372036854775808 : Nat) ≤ min n maxUint64 := by
        unfold maxUint64
        omega
      rw [if_pos hm, if_pos hbig]
    · have hm : ¬ (9223372036854775808 : Nat) ≤ min n maxUint64 := by
        unfold maxUint64
        omega
      have hmin : min n maxUint64 = n := by
        unfold maxUint64
        omega
      rw [if_neg hm, if_neg hbig, hmin]

/-- Reading the decimal text of an `int` gives the `int` back. -/
theorem Atoi_itoa (i : Int) (h1 : minInt64 ≤ i) (h2 : i ≤ maxInt64) : Atoi (itoa i) = i := by
  unfold minInt64 at h1
  unfold maxInt64 at h2
  cases i with
  | ofNat n =>
    have hs : itoa (Int.ofNat n) = Sprint n := rfl
    rw [hs, Atoi_Sprint]
    have hn : ¬ 9223372036854775808 ≤ n := by
      have : (n : Int) ≤ 9223372036854775807 := h2
      omega
    rw [if_neg hn]
    rfl
  | negSucc m =>
    obtain ⟨hdig, hne, hval⟩ := toDigits_spec (m + 1)
    have hdata : (itoa (Int.negSucc m)).data = '-' :: Nat.toDigits 10 (m + 1) := rfl
    unfold Atoi
    rw [hdata]
    simp only [if_true]
    unfold parseMagnitude
    cases hcs : Nat.toDigits 10 (m + 1) with
    | nil => exact absurd hcs hne
    | cons c cs =>
      rw [hcs] at hdig hval
      simp only
      rw [parseDigits_digits (c :: cs) 0 hdig (Nat.zero_le _), hval]
      simp only
      have hneg : Int.negSucc m = -((m : Int) + 1) := Int.negSucc_eq m
      have hm : m + 1 ≤ 9223372036854775808 := by
        rw [hneg] at h1
        omega
      have hmin : min (m + 1) maxUint64 = m + 1 := by
        unfold maxUint64
        omega
      rw [hmin, if_neg (by omega), hneg]
      push_cast
      rfl

/-- The value that `Atoi` returns is a 64-bit `int`. -/
theorem Atoi_bounds (s : String) : minInt64 ≤ Atoi s ∧ Atoi s ≤ maxInt64 := by
  unfold Atoi minInt64 maxInt64
  split
  · omega
  · split
    · split
      · split <;> omega
      · omega
    · split
      · split
        · split <;> omega
        · omega
      · split
        · split <;> omega
        · omega

/-! ## What the redistribute pass adds to ALL -/

theorem mem_batchProcessCheck (b : List Int) (s : State) (x : String) :
    x ∈ (BatchProcessCheck b s).all ↔ (x ∈ s.all ∨ ∃ n ∈ b, x = itoa n) := by
  unfold BatchProcessCheck
  simp only
  rw [mem_foldl_sadd_itoa]
  constructor
  · rintro (h | ⟨n, hn, hx⟩)
    · exact Or.inl h
    · exact Or.inr ⟨n, (List.mem_filter.mp hn).1, hx⟩
  · rintro (h | ⟨n, hn, hx⟩)
    · exact Or.inl h
    · by_cases hm : itoa n ∈ s.all
      · rw [hx]; exact Or.inl hm
      · refine Or.inr ⟨n, List.mem_filter.mpr ⟨hn, ?_⟩, hx⟩
        simp [sismember, hm]

theorem checkLoop_mem (env : Env) (fuel : Nat) (i last : Int) (started : Nat)
    (batch : List Int) (s : State) (x : String)
    (h : (last - i + 1).toNat ≤ fuel)
    (hread : (∀ k b, env.closureRead k b = b) ∨
      batch.length + (last - i + 1).toNat < batchSize) :
    (x ∈ (checkLoop env fuel i last started batch s).2.all ∨
        ∃ n ∈ (checkLoop env fuel i last started batch s).1, x = itoa n) ↔
      (x ∈ s.all ∨ (∃ n ∈ batch, x = itoa n) ∨ ∃ k, i ≤ k ∧ k ≤ last ∧ x = itoa k) := by
  induction fuel generalizing i started batch s with
  | zero =>
    have hi : ¬ i ≤ last := by omega
    unfold checkLoop
    constructor
    · rintro (h1 | h1)
      · exact Or.inl h1
      · exact Or.inr (Or.inl h1)
    · rintro (h1 | h1 | ⟨k, hk1, hk2, _⟩)
      · exact Or.inl h1
      · exact Or.inr h1
      · exact absurd (le_trans hk1 hk2) hi
  | succ fuel ih =>
    unfold checkLoop
    by_cases hi : i ≤ last
    · simp only [hi, if_true]
      have hlen1 : (batch ++ [i]).length = batch.length + 1 := by simp
      by_cases hfull : (batch ++ [i]).length = batchSize
      · rw [if_pos hfull]
        have hid : ∀ k b, env.closureRead k b = b := by
          rcases hread with hid | hsmall
          · exact hid
          · exfalso
            omega
        rw [hid, ih (i + 1) (started + 1) [] (BatchProcessCheck (batch ++ [i]) s) (by omega)
          (Or.inl hid), mem_batchProcessCheck]
        constructor
        · rintro ((h1 | ⟨n, hn, hx⟩) | ⟨n, hn, _⟩ | ⟨k, hk1, hk2, hx⟩)
          · exact Or.inl h1
          · rcases List.mem_append.mp hn with hn' | hn'
            · exact Or.inr (Or.inl ⟨n, hn', hx⟩)
            · simp only [List.mem_singleton] at hn'
              exact Or.inr (Or.inr ⟨i, le_refl i, hi, by rw [hx, hn']⟩)
          · exact absurd hn (List.not_mem_nil n)
          · exact Or.inr (Or.inr ⟨k, by omega, hk2, hx⟩)
        · rintro (h1 | ⟨n, hn, hx⟩ | ⟨k, hk1, hk2, hx⟩)
          · exact Or.inl (Or.inl h1)
          · exact Or.inl (Or.inr ⟨n, List.mem_append_left _ hn, hx⟩)
          · by_cases hki : k = i
            · exact Or.inl (Or.inr ⟨i, List.mem_append_right _ (List.mem_singleton_self i),
                by rw [hx, hki]⟩)
            · exact Or.inr (Or.inr ⟨k, by omega, hk2, hx⟩)
      · rw [if_neg hfull]
        have hread1 : (∀ k b, env.closureRead k b = b) ∨
            (batch ++ [i]).length + (last - (i + 1) + 1).toNat < batchSize := by
          rcases hread with hid | hsmall
          · exact Or.inl hid
          · exact Or.inr (by omega)
        rw [ih (i + 1) started (batch ++ [i]) s (by omega) hread1]
        constructor
        · rintro (h1 | ⟨n, hn, hx⟩ | ⟨k, hk1, hk2, hx⟩)
          · exact Or.inl h1
          · rcases List.mem_append.mp hn with hn' | hn'
            · exact Or.inr (Or.inl ⟨n, hn', hx⟩)
            · simp only [List.mem_singleton] at hn'
              exact Or.inr (Or.inr ⟨i, le_refl i, hi, by rw [hx, hn']⟩)
          · exact Or.inr (Or.inr ⟨k, by omega, hk2, hx⟩)
        · rintro (h1 | ⟨n, hn, hx⟩ | ⟨k, hk1, hk2, hx⟩)
          · exact Or.inl h1
          · exact Or.inr (Or.inl ⟨n, List.mem_append_left _ hn, hx⟩)
          · by_cases hki : k = i
            · exact Or.inr (Or.inl ⟨i, List.mem_append_right _ (List.mem_singleton_self i),
                by rw [hx, hki]⟩)
            · exact Or.inr (Or.inr ⟨k, by omega, hk2, hx⟩)
    · simp only [hi, if_false]
      constructor
      · rintro (h1 | h1)
        · exact Or.inl h1
        · exact Or.inr (Or.inl h1)
      · rintro (h1 | h1 | ⟨k, hk1, hk2, _⟩)
        · exact Or.inl h1
        · exact Or.inr h1
        · exact absurd (le_trans hk1 hk2) hi

/-- After a pass that had something to do, in which no batch became full or
every goroutine read its batch before the loop reset the variable, ALL holds
the union of the three sets and the decimal text of every number of the range
between the values of the first and the last member in text order. -/
theorem checkRedisTaskQueue_fill (env : Env) (s s' : State) (hU : unionAll s ≠ [])
    (h : CheckRedisTaskQueue env s = some s')
    (hread : (∀ k b, env.closureRead k b = b) ∨
      (parseInt (lastOf (sortStrings (unionAll s))) -
        Atoi (firstOf (sortStrings (unionAll s))) + 1).toNat < batchSize) :
    parseInt (lastOf (sortStrings (unionAll s))) ≠ maxInt64 ∧
    ∀ x, x ∈ s'.all ↔
      (x ∈ unionAll s ∨
        ∃ k, Atoi (firstOf (sortStrings (unionAll s))) ≤ k ∧
          k ≤ parseInt (lastOf (sortStrings (unionAll s))) ∧ x = itoa k) := by
  have hlen : ¬ (unionAll s).length = 0 := fun hl => hU (List.length_eq_zero.mp hl)
  unfold CheckRedisTaskQueue at h
  simp only at h
  unfold unionAll at hlen
  rw [if_neg hlen] at h
  split at h
  · exact absurd h (by simp)
  · rename_i hmax
    refine ⟨hmax, ?_⟩
    injection h with h
    subst h
    intro x
    have hk := checkLoop_mem env
      (parseInt (lastOf (sortStrings (unionAll s))) -
        Atoi (firstOf (sortStrings (unionAll s))) + 1).toNat
      (Atoi (firstOf (sortStrings (unionAll s))))
      (parseInt (lastOf (sortStrings (unionAll s)))) 0 []
      { all := unionAll s,
        noConsumed := (env.smove s.consuming s.noConsumed s.consuming).2,
        consuming := [], consumed := s.consumed, transactions := s.transactions,
        cursor := s.cursor, blockNumberTable := s.blockNumberTable,
        transactionTable := s.transactionTable } x (le_refl _)
      (hread.imp id (fun hs => by simpa using hs))
    simp only [List.not_mem_nil, false_and, exists_false, false_or] at hk
    rw [← hk]
    unfold unionAll
    generalize checkLoop _ _ _ _ _ _ _ = r
    have hd : ∀ t : State, (diffRepair t).all = t.all := fun _ => rfl
    rw [hd]
    split
    · rw [mem_batchProcessCheck]
    · rename_i hr
      have hnil : r.1 = [] := by
        cases hr1 : r.1 with
        | nil => rfl
        | cons a t =>
          rw [hr1] at hr
          simp at hr
      rw [hnil]
      simp

/-! ## A goroutine that reads the variable after the reset -/

theorem checkLoop_nilRead (env : Env) (hnil : ∀ k b, env.closureRead k b = [])
    (fuel : Nat) (i last : Int) (started : Nat) (batch : List Int) (s : State) :
    (checkLoop env fuel i last started batch s).2 = s := by
  induction fuel generalizing i started batch s with
  | zero => rfl
  | succ fuel ih =>
    unfold checkLoop
    by_cases hi : i ≤ last
    · simp only [hi, if_true]
      split
      · rw [hnil, ih]
        rfl
      · rw [ih]
    · simp only [hi, if_false]

/-- The numbers left over for the goroutine after the loop are as many as the
remainder of the count of numbers by the batch size. -/
theorem checkLoop_pending (env : Env) (fuel : Nat) (i last : Int) (started : Nat)
    (batch : List Int) (s : State)
    (h : (last - i + 1).toNat ≤ fuel) (hb : batch.length < batchSize) :
    (checkLoop env fuel i last started batch s).1.length =
      (batch.length + (last - i + 1).toNat) % batchSize := by
  induction fuel generalizing i started batch s with
  | zero =>
    have hz : (last - i + 1).toNat = 0 := by omega
    unfold checkLoop
    rw [hz, Nat.add_zero, Nat.mod_eq_of_lt hb]
  | succ fuel ih =>
    unfold checkLoop
    by_cases hi : i ≤ last
    · simp only [hi, if_true]
      have hlen1 : (batch ++ [i]).length = batch.length + 1 := by simp
      by_cases hfull : (batch ++ [i]).length = batchSize
      · rw [if_pos hfull, ih (i + 1) (started + 1) [] _ (by omega) (by decide)]
        unfold batchSize at hfull hb ⊢
        simp only [List.length_nil]
        omega
      · rw [if_neg hfull, ih (i + 1) started (batch ++ [i]) s (by omega) (by omega)]
        unfold batchSize at hfull hb ⊢
        omega
    · simp only [hi, if_false]
      have hz : (last - i + 1).toNat = 0 := by omega
      rw [hz, Nat.add_zero, Nat.mod_eq_of_lt hb]

/-- A pass over a range whose count of numbers is a multiple of the batch
size, in which every goroutine reads nil: nothing is added to ALL beyond the
union of the three sets. -/
theorem checkRedisTaskQueue_nilRead (env : Env) (s : State)
    (hnil : ∀ k b, env.closureRead k b = [])
    (hU : unionAll s ≠ [])
    (hmax : parseInt (lastOf (sortStrings (unionAll s))) ≠ maxInt64)
    (hfull : (parseInt (lastOf (sortStrings (unionAll s))) -
      Atoi (firstOf (sortStrings (unionAll s))) + 1).toNat % batchSize = 0) :
    CheckRedisTaskQueue env s =
      some (diffRepair { s with
        all := unionAll s
        noConsumed := (env.smove s.consuming s.noConsumed s.consuming).2
        consuming := [] }) := by
  have hlen : ¬ (unionAll s).length = 0 := fun hl => hU (List.length_eq_zero.mp hl)
  have hp := checkLoop_pending env
    (parseInt (lastOf (sortStrings (unionAll s))) -
      Atoi (firstOf (sortStrings (unionAll s))) + 1).toNat
    (Atoi (firstOf (sortStrings (unionAll s))))
    (parseInt (lastOf (sortStrings (unionAll s)))) 0 []
    { all := unionAll s,
      noConsumed := (env.smove s.consuming s.noConsumed s.consuming).2,
      consuming := [], consumed := s.consumed, transactions := s.transactions,
      cursor := s.cursor, blockNumberTable := s.blockNumberTable,
      transactionTable := s.transactionTable } (le_refl _) (by decide)
  rw [List.length_nil, Nat.zero_add, hfull] at hp
  unfold CheckRedisTaskQueue
  simp only
  unfold unionAll at hlen hmax hp ⊢
  rw [if_neg hlen, if_neg hmax, if_neg (by rw [hp]; exact Nat.lt_irrefl 0),
    checkLoop_nilRead env hnil]

/-! ## Idempotence of the redistribute pass -/

theorem checkRedisTaskQueue_empty (env : Env) (s : State) (hU : unionAll s = []) :
    CheckRedisTaskQueue env s = some { s with all := [] } := by
  unfold CheckRedisTaskQueue
  unfold unionAll at hU
  simp only [hU, List.length_nil, if_true]

/-- When the range of a completed pass holds fewer numbers than a batch, so
that no goroutine is started inside the loop, a second pass right after it
completes too and leaves the four sets with the same members. -/
theorem checkRedisTaskQueue_idempotent_below_batch (env env' : Env) (s s1 : State)
    (h : CheckRedisTaskQueue env s = some s1)
    (hsmall : (parseInt (lastOf (sortStrings (unionAll s))) -
      Atoi (firstOf (sortStrings (unionAll s))) + 1).toNat < batchSize) :
    ∃ s2, CheckRedisTaskQueue env' s1 = some s2 ∧ SameSets s2 s1 := by
  by_cases hU : unionAll s = []
  · rw [checkRedisTaskQueue_empty env s hU] at h
    injection h with h
    subst h
    have hU1 : unionAll { s with all := [] } = [] := hU
    refine ⟨{ s with all := [] }, ?_, fun x => ⟨Iff.rfl, Iff.rfl, Iff.rfl, Iff.rfl⟩⟩
    rw [checkRedisTaskQueue_empty env' _ hU1]
  · obtain ⟨hc, hcd, hsub, hno⟩ := checkRedisTaskQueue_result env s s1 h
    obtain ⟨hmax, hall⟩ := checkRedisTaskQueue_fill env s s1 hU h (Or.inr hsmall)
    have hU1mem : ∀ x, x ∈ unionAll s1 ↔ x ∈ s1.all := by
      intro x
      rw [mem_unionAll]
      constructor
      · rintro (hx | hx | hx)
        · exact ((hno x).mp hx).1
        · rw [hc] at hx
          exact absurd hx (List.not_mem_nil x)
        · rw [hcd] at hx
          exact hsub x ((mem_unionAll s x).mpr (Or.inr (Or.inr hx)))
      · intro hx
        by_cases hcon : x ∈ s1.consumed
        · exact Or.inr (Or.inr hcon)
        · exact Or.inl ((hno x).mpr ⟨hx, hcon⟩)
    have hUsub : ∀ x, x ∈ unionAll s → x ∈ unionAll s1 :=
      fun x hx => (hU1mem x).mpr (hsub x hx)
    obtain ⟨y, hy⟩ := List.exists_mem_of_ne_nil _ hU
    have hU1 : unionAll s1 ≠ [] := List.ne_nil_of_mem (hUsub y hy)
    have hlo := (Atoi_bounds (firstOf (sortStrings (unionAll s)))).1
    have hhi : parseInt (lastOf (sortStrings (unionAll s))) ≤ maxInt64 :=
      (Atoi_bounds (lastOf (sortStrings (unionAll s)))).2
    have hf : firstOf (sortStrings (unionAll s)) ∈ unionAll s :=
      firstOf_sortStrings_mem _ hU
    have hl : lastOf (sortStrings (unionAll s)) ∈ unionAll s :=
      lastOf_sortStrings_mem _ hU
    have hf1 : firstOf (sortStrings (unionAll s1)) ∈ unionAll s1 :=
      firstOf_sortStrings_mem _ hU1
    have hl1 : lastOf (sortStrings (unionAll s1)) ∈ unionAll s1 :=
      lastOf_sortStrings_mem _ hU1
    have hA : Atoi (firstOf (sortStrings (unionAll s))) ≤
        Atoi (firstOf (sortStrings (unionAll s1))) := by
      rcases (hall _).mp ((hU1mem _).mp hf1) with hin | ⟨k, hk1, hk2, hkx⟩
      · have heq : firstOf (sortStrings (unionAll s1)) = firstOf (sortStrings (unionAll s)) :=
          lexLe_antisymm _ _ (firstOf_sortStrings_le _ _ (hUsub _ hf))
            (firstOf_sortStrings_le _ _ hin)
        rw [heq]
      · rw [hkx, Atoi_itoa k (le_trans hlo hk1) (le_trans hk2 hhi)]
        exact hk1
    have hB : parseInt (lastOf (sortStrings (unionAll s1))) ≤
        parseInt (lastOf (sortStrings (unionAll s))) := by
      rcases (hall _).mp ((hU1mem _).mp hl1) with hin | ⟨k, hk1, hk2, hkx⟩
      · have heq : lastOf (sortStrings (unionAll s1)) = lastOf (sortStrings (unionAll s)) :=
          lexLe_antisymm _ _ (le_lastOf_sortStrings _ _ hin)
            (le_lastOf_sortStrings _ _ (hUsub _ hl))
        rw [heq]
      · rw [hkx]
        unfold parseInt
        rw [Atoi_itoa k (le_trans hlo hk1) (le_trans hk2 hhi)]
        exact hk2
    have hmax1 : parseInt (lastOf (sortStrings (unionAll s1))) ≠ maxInt64 := by
      intro he
      rw [he] at hB
      exact hmax (le_antisymm hhi hB)
    obtain ⟨s2, h2⟩ := (checkRedisTaskQueue_isSome env' s1).mp (Or.inr hmax1)
    obtain ⟨hc2, hcd2, _, hno2⟩ := checkRedisTaskQueue_result env' s1 s2 h2
    have hsmall1 : (parseInt (lastOf (sortStrings (unionAll s1))) -
        Atoi (firstOf (sortStrings (unionAll s1))) + 1).toNat < batchSize := by
      omega
    obtain ⟨_, hall2⟩ := checkRedisTaskQueue_fill env' s1 s2 hU1 h2 (Or.inr hsmall1)
    have hallEq : ∀ x, x ∈ s2.all ↔ x ∈ s1.all := by
      intro x
      rw [hall2 x]
      constructor
      · rintro (hx | ⟨k, hk1, hk2, hkx⟩)
        · exact (hU1mem x).mp hx
        · exact (hall x).mpr (Or.inr ⟨k, le_trans hA hk1, le_trans hk2 hB, hkx⟩)
      · intro hx
        exact Or.inl ((hU1mem x).mpr hx)
    refine ⟨s2, h2, ?_⟩
    intro x
    refine ⟨hallEq x, ?_, ?_, ?_⟩
    · rw [hno2 x, hno x, hallEq x, hcd2]
    · rw [hc2, hc]
    · rw [hcd2]

/-- C16 (failing input): NO_CONSUMED = {100000, 199999}, a range of exactly
100000 numbers, one full batch.  In the first run the goroutine started for
the batch reads the variable after the loop has set it to nil: nothing is
filled and ALL is {100000, 199999}.  In a second run right after it the
goroutine reads the variable before that assignment: 150000 is now in ALL.
The two runs do not leave the same sets. -/
theorem checkRedisTaskQueue_runs_disagree :
    CheckRedisTaskQueue env0 (mkState [] ["100000", "199999"] [] []) =
      some (mkState ["100000", "199999"] ["100000", "199999"] [] []) ∧
    ∃ s2, CheckRedisTaskQueue envReadBatch
        (mkState ["100000", "199999"] ["100000", "199999"] [] []) = some s2 ∧
      "150000" ∈ s2.all ∧
      "150000" ∉ (mkState ["100000", "199999"] ["100000", "199999"] [] []).all ∧
      ¬ SameSets s2 (mkState ["100000", "199999"] ["100000", "199999"] [] []) := by
  constructor
  · rw [checkRedisTaskQueue_nilRead env0 (mkState [] ["100000", "199999"] [] [])
      (fun _ _ => rfl) (by decide) (by decide) (by decide)]
    decide
  · have hU : unionAll (mkState ["100000", "199999"] ["100000", "199999"] [] []) ≠ [] := by
      decide
    obtain ⟨s2, h2⟩ := (checkRedisTaskQueue_isSome envReadBatch
      (mkState ["100000", "199999"] ["100000", "199999"] [] [])).mp (Or.inr (by decide))
    obtain ⟨_, hall⟩ := checkRedisTaskQueue_fill envReadBatch _ s2 hU h2
      (Or.inl (fun _ _ => rfl))
    have hin : "150000" ∈ s2.all :=
      (hall "150000").mpr (Or.inr ⟨150000, by decide, by decide, by decide⟩)
    have hout : "150000" ∉
        (mkState ["100000", "199999"] ["100000", "199999"] [] []).all := by decide
    exact ⟨s2, h2, hin, hout, fun hsame => hout ((hsame "150000").1.mp hin)⟩

/-! ## What the gap fill adds to ALL -/

theorem mem_missingLoop (fuel : Nat) (i last : Int) (all : List String) (missing : List Int)
    (k : Int) (h : (last - i + 1).toNat ≤ fuel) :
    k ∈ missingLoop fuel i last all missing ↔
      (k ∈ missing ∨ (i ≤ k ∧ k ≤ last ∧ ∀ num ∈ all, k ≠ parseInt num)) := by
  induction fuel generalizing i missing with
  | zero =>
    have hi : ¬ i ≤ last := by omega
    unfold missingLoop
    constructor
    · intro h1; exact Or.inl h1
    · rintro (h1 | ⟨hk1, hk2, _⟩)
      · exact h1
      · exact absurd (le_trans hk1 hk2) hi
  | succ fuel ih =>
    unfold missingLoop
    by_cases hi : i ≤ last
    · simp only [hi, if_true]
      by_cases hfound : all.any (fun num => decide (i = parseInt num)) = true
      · simp only [hfound, Bool.not_true, Bool.false_eq_true, if_false]
        rw [ih (i + 1) missing (by omega)]
        rw [List.any_eq_true] at hfound
        obtain ⟨num, hnum, hval⟩ := hfound
        have hval' : i = parseInt num := of_decide_eq_true hval
        constructor
        · rintro (h1 | ⟨hk1, hk2, hk3⟩)
          · exact Or.inl h1
          · exact Or.inr ⟨by omega, hk2, hk3⟩
        · rintro (h1 | ⟨hk1, hk2, hk3⟩)
          · exact Or.inl h1
          · have hne : k ≠ i := fun he => hk3 num hnum (by rw [he, hval'])
            exact Or.inr ⟨by omega, hk2, hk3⟩
      · have hfound' : all.any (fun num => decide (i = parseInt num)) = false := by
          simpa using hfound
        simp only [hfound', Bool.not_false, if_true]
        rw [ih (i + 1) (missing ++ [i]) (by omega)]
        have hnone : ∀ num ∈ all, i ≠ parseInt num := by
          intro num hnum he
          apply hfound
          rw [List.any_eq_true]
          exact ⟨num, hnum, decide_eq_true he⟩
        constructor
        · rintro (h1 | ⟨hk1, hk2, hk3⟩)
          · rcases List.mem_append.mp h1 with h1' | h1'
            · exact Or.inl h1'
            · simp only [List.mem_singleton] at h1'
              rw [h1']
              exact Or.inr ⟨le_refl i, hi, hnone⟩
          · exact Or.inr ⟨by omega, hk2, hk3⟩
        · rintro (h1 | ⟨hk1, hk2, hk3⟩)
          · exact Or.inl (List.mem_append_left _ h1)
          · by_cases hki : k = i
            · exact Or.inl (List.mem_append_right _ (by rw [hki]; exact List.mem_singleton_self i))
            · exact Or.inr ⟨by omega, hk2, hk3⟩
    · simp only [hi, if_false]
      constructor
      · intro h1; exact Or.inl h1
      · rintro (h1 | ⟨hk1, hk2, _⟩)
        · exact h1
        · exact absurd (le_trans hk1 hk2) hi

theorem foldl_sadd_state_all (missing : List Int) (s : State) :
    (missing.foldl (fun st blockNumber =>
        { st with all := sadd st.all (itoa blockNumber) }) s).all =
      missing.foldl (fun acc n => sadd acc (itoa n)) s.all := by
  induction missing generalizing s with
  | nil => rfl
  | cons n ns ih =>
    rw [List.foldl_cons, List.foldl_cons, ih]

/-- The gap fill returns a state exactly when the bound of its loop is below
the largest `int`; ALL then holds its former members and the decimal text of
every number of the range that is the value of no member. -/
theorem checkAllBlockNumberIsContinue_spec (s : State) (hne : s.all ≠ []) :
    (parseInt (lastOf (sortStrings s.all)) ≠ maxInt64 →
      ∃ s', CheckAllBlockNumberIsContinue s = some s') ∧
    ∀ s', CheckAllBlockNumberIsContinue s = some s' →
      parseInt (lastOf (sortStrings s.all)) ≠ maxInt64 ∧
      ∀ x, x ∈ s'.all ↔
        (x ∈ s.all ∨
          ∃ k, Atoi (firstOf (sortStrings s.all)) ≤ k ∧
            k ≤ parseInt (lastOf (sortStrings s.all)) ∧
            (∀ num ∈ s.all, k ≠ parseInt num) ∧ x = itoa k) := by
  have hlen : ¬ s.all.length = 0 := fun hl => hne (List.length_eq_zero.mp hl)
  constructor
  · intro hmax
    unfold CheckAllBlockNumberIsContinue
    simp only [hlen, if_false, hmax]
    split
    · exact ⟨_, rfl⟩
    · exact ⟨_, rfl⟩
  · intro s' h
    unfold CheckAllBlockNumberIsContinue at h
    simp only [hlen, if_false] at h
    split at h
    · exact absurd h (by simp)
    · rename_i hmax
      refine ⟨hmax, ?_⟩
      have hd : ∀ t : State, (diffRepair t).all = t.all := fun _ => rfl
      have key : ∀ x, x ∈ (List.foldl (fun st blockNumber =>
            { st with all := sadd st.all (itoa blockNumber) }) s
            (missingLoop (parseInt (lastOf (sortStrings s.all)) -
              Atoi (firstOf (sortStrings s.all)) + 1).toNat
              (Atoi (firstOf (sortStrings s.all))) (parseInt (lastOf (sortStrings s.all)))
              (sortStrings s.all) [])).all ↔
          (x ∈ s.all ∨
            ∃ k, Atoi (firstOf (sortStrings s.all)) ≤ k ∧
              k ≤ parseInt (lastOf (sortStrings s.all)) ∧
              (∀ num ∈ s.all, k ≠ parseInt num) ∧ x = itoa k) := by
        intro x
        rw [foldl_sadd_state_all, mem_foldl_sadd_itoa]
        constructor
        · rintro (hx | ⟨k, hk, hkx⟩)
          · exact Or.inl hx
          · rw [mem_missingLoop _ _ _ _ _ _ (le_refl _)] at hk
            rcases hk with hk | ⟨hk1, hk2, hk3⟩
            · exact absurd hk (List.not_mem_nil k)
            · exact Or.inr ⟨k, hk1, hk2,
                fun num hnum => hk3 num ((mem_sortStrings num s.all).mpr hnum), hkx⟩
        · rintro (hx | ⟨k, hk1, hk2, hk3, hkx⟩)
          · exact Or.inl hx
          · refine Or.inr ⟨k, ?_, hkx⟩
            rw [mem_missingLoop _ _ _ _ _ _ (le_refl _)]
            exact Or.inr ⟨hk1, hk2,
              fun num hnum => hk3 num ((mem_sortStrings num s.all).mp hnum)⟩
      split at h
      · injection h with h
        subst h
        intro x
        rw [hd]
        exact key x
      · injection h with h
        subst h
        exact key

/-! ## Text order and numeric order on numerals of one length -/

theorem decVal_cons_zero (c : Char) (cs : List Char) :
    decVal (c :: cs) 0 = (c.toNat - 48) * 10 ^ cs.length + decVal cs 0 := by
  have hd : decVal (c :: cs) 0 = decVal cs (0 * 10 + (c.toNat - 48)) := rfl
  rw [hd, decVal_acc, Nat.zero_mul, Nat.zero_add]

/-- Of two digit texts of the same length the one with the smaller value comes
first in text order. -/
theorem charsLess_of_decVal_lt (a b : List Char) (ha : IsDigits a) (hb : IsDigits b)
    (hlen : a.length = b.length) (h : decVal a 0 < decVal b 0) : charsLess a b = true := by
  induction a generalizing b with
  | nil =>
    cases b with
    | nil => simp [decVal] at h
    | cons d ds => simp at hlen
  | cons c cs ih =>
    cases b with
    | nil => simp at hlen
    | cons d ds =>
      have hc := ha c (by simp)
      have hdg := hb d (by simp)
      have hcs : IsDigits cs := fun e he => ha e (List.mem_cons_of_mem c he)
      have hds : IsDigits ds := fun e he => hb e (List.mem_cons_of_mem d he)
      have hl : cs.length = ds.length := by simpa using hlen
      have hra := decVal_lt cs hcs
      have hrb := decVal_lt ds hds
      rw [decVal_cons_zero, decVal_cons_zero, hl] at h
      rw [hl] at hra
      unfold charsLess
      by_cases h1 : c.toNat < d.toNat
      · simp [h1]
      · by_cases h2 : d.toNat < c.toNat
        · exfalso
          have hstep : (d.toNat - 48) + 1 ≤ c.toNat - 48 := by omega
          have hmul := Nat.mul_le_mul_right (10 ^ ds.length) hstep
          rw [Nat.add_mul, Nat.one_mul] at hmul
          omega
        · simp only [h1, h2, if_false]
          have heq : c.toNat - 48 = d.toNat - 48 := by omega
          rw [heq] at h
          exact ih ds hcs hds hl (by omega)

theorem Sprint_length (n : Nat) : (Sprint n).length = (Nat.toDigits 10 n).length := rfl

/-- Of two canonical numerals of the same length the one that does not come
later in text order has the smaller value. -/
theorem Sprint_le_of_lexLe (n m : Nat) (hlen : (Sprint n).length = (Sprint m).length)
    (h : lexLe (Sprint n) (Sprint m)) : n ≤ m := by
  by_contra hnm
  have hlt : m < n := by omega
  obtain ⟨hdn, _, hvn⟩ := toDigits_spec n
  obtain ⟨hdm, _, hvm⟩ := toDigits_spec m
  rw [Sprint_length, Sprint_length] at hlen
  have hless := charsLess_of_decVal_lt (Nat.toDigits 10 m) (Nat.toDigits 10 n) hdm hdn
    hlen.symm (by rw [hvm, hvn]; exact hlt)
  unfold lexLe strLess at h
  rw [Sprint_data, Sprint_data, hless] at h
  exact Bool.noConfusion h

theorem foldl_min_mem (vs : List Int) (v : Int) :
    vs.foldl min v = v ∨ vs.foldl min v ∈ vs := by
  induction vs generalizing v with
  | nil => exact Or.inl rfl
  | cons u us ih =>
    rw [List.foldl_cons]
    rcases ih (min v u) with h | h
    · rw [h]
      rcases min_choice v u with hm | hm
      · exact Or.inl hm
      · exact Or.inr (by rw [hm]; simp)
    · exact Or.inr (List.mem_cons_of_mem u h)

theorem foldl_max_mem (vs : List Int) (v : Int) :
    vs.foldl max v = v ∨ vs.foldl max v ∈ vs := by
  induction vs generalizing v with
  | nil => exact Or.inl rfl
  | cons u us ih =>
    rw [List.foldl_cons]
    rcases ih (max v u) with h | h
    · rw [h]
      rcases max_choice v u with hm | hm
      · exact Or.inl hm
      · exact Or.inr (by rw [hm]; simp)
    · exact Or.inr (List.mem_cons_of_mem u h)

theorem numericMin_mem (set : List String) (h : set ≠ []) :
    ∃ x ∈ set, parseInt x = numericMin set := by
  cases set with
  | nil => exact absurd rfl h
  | cons y ys =>
    unfold numericMin
    simp only [List.map_cons]
    rcases foldl_min_mem (ys.map parseInt) (parseInt y) with hm | hm
    · exact ⟨y, by simp, hm.symm⟩
    · obtain ⟨x, hx, hxv⟩ := List.mem_map.mp hm
      exact ⟨x, List.mem_cons_of_mem y hx, hxv⟩

theorem numericMax_mem (set : List String) (h : set ≠ []) :
    ∃ x ∈ set, parseInt x = numericMax set := by
  cases set with
  | nil => exact absurd rfl h
  | cons y ys =>
    unfold numericMax
    simp only [List.map_cons]
    rcases foldl_max_mem (ys.map parseInt) (parseInt y) with hm | hm
    · exact ⟨y, by simp, hm.symm⟩
    · obtain ⟨x, hx, hxv⟩ := List.mem_map.mp hm
      exact ⟨x, List.mem_cons_of_mem y hx, hxv⟩

theorem parseInt_Sprint_mono (n m : Nat) (h : n ≤ m) :
    parseInt (Sprint n) ≤ parseInt (Sprint m) := by
  unfold parseInt
  rw [Atoi_Sprint, Atoi_Sprint]
  unfold maxInt64
  split <;> split <;> omega

/-- C17: when ALL is not empty and its members are canonical decimal numerals
of one and the same length, a completed run of
`Monitor.CheckAllBlockNumberIsContinue` leaves ALL with exactly the decimal
texts of the integers from the numeric minimum to the numeric maximum of the
former ALL; the run completes whenever that maximum is below the largest
`int`. -/
theorem checkAllBlockNumberIsContinue_interval (s : State) (hne : s.all ≠ [])
    (hcanon : ∀ x ∈ s.all, Canonical x)
    (hlen : ∀ x ∈ s.all, ∀ y ∈ s.all, x.length = y.length) :
    (numericMax s.all ≠ maxInt64 → ∃ s', CheckAllBlockNumberIsContinue s = some s') ∧
    ∀ s', CheckAllBlockNumberIsContinue s = some s' →
      ∀ x, x ∈ s'.all ↔
        ∃ k : Int, numericMin s.all ≤ k ∧ k ≤ numericMax s.all ∧ x = itoa k := by
  obtain ⟨hsome, hspec⟩ := checkAllBlockNumberIsContinue_spec s hne
  have hf := firstOf_sortStrings_mem s.all hne
  have hl := lastOf_sortStrings_mem s.all hne
  have hfirst : ∀ x ∈ s.all, parseInt (firstOf (sortStrings s.all)) ≤ parseInt x := by
    intro x hx
    obtain ⟨n, hn⟩ := hcanon _ hf
    obtain ⟨m, hm⟩ := hcanon x hx
    have hle := firstOf_sortStrings_le s.all x hx
    have hxl := hlen _ hf x hx
    rw [hn, hm] at hle hxl
    rw [hn, hm]
    exact parseInt_Sprint_mono n m (Sprint_le_of_lexLe n m hxl hle)
  have hlast : ∀ x ∈ s.all, parseInt x ≤ parseInt (lastOf (sortStrings s.all)) := by
    intro x hx
    obtain ⟨n, hn⟩ := hcanon _ hl
    obtain ⟨m, hm⟩ := hcanon x hx
    have hle := le_lastOf_sortStrings s.all x hx
    have hxl := hlen x hx _ hl
    rw [hn, hm] at hle hxl
    rw [hn, hm]
    exact parseInt_Sprint_mono m n (Sprint_le_of_lexLe m n hxl hle)
  have hmin : numericMin s.all = parseInt (firstOf (sortStrings s.all)) := by
    obtain ⟨y, hy, hyv⟩ := numericMin_mem s.all hne
    exact le_antisymm (numericMin_le s.all _ hf) (by rw [← hyv]; exact hfirst y hy)
  have hmaxeq : numericMax s.all = parseInt (lastOf (sortStrings s.all)) := by
    obtain ⟨y, hy, hyv⟩ := numericMax_mem s.all hne
    exact le_antisymm (by rw [← hyv]; exact hlast y hy) (le_numericMax s.all _ hl)
  constructor
  · intro hmax
    exact hsome (by rw [← hmaxeq]; exact hmax)
  · intro s' h
    obtain ⟨hmax, hall⟩ := hspec s' h
    have hround : ∀ x ∈ s.all, itoa (parseInt x) = x := by
      intro x hx
      obtain ⟨m, hm⟩ := hcanon x hx
      have hxle := hlast x hx
      have hub := (Atoi_bounds (lastOf (sortStrings s.all))).2
      have hlt : parseInt x < maxInt64 :=
        lt_of_le_of_lt hxle (lt_of_le_of_ne hub hmax)
      rw [hm] at hlt ⊢
      unfold parseInt at hlt ⊢
      rw [Atoi_Sprint] at hlt ⊢
      by_cases hbig : 9223372036854775808 ≤ m
      · rw [if_pos hbig] at hlt
        exact absurd hlt (lt_irrefl _)
      · rw [if_neg hbig]
        rfl
    intro x
    rw [hall x, hmin, hmaxeq]
    constructor
    · rintro (hx | ⟨k, hk1, hk2, _, hkx⟩)
      · exact ⟨parseInt x, hfirst x hx, hlast x hx, (hround x hx).symm⟩
      · exact ⟨k, hk1, hk2, hkx⟩
    · rintro ⟨k, hk1, hk2, hkx⟩
      by_cases hval : ∃ num ∈ s.all, k = parseInt num
      · obtain ⟨num, hnum, hk⟩ := hval
        left
        rw [hkx, hk, hround num hnum]
        exact hnum
      · right
        refine ⟨k, hk1, hk2, ?_, hkx⟩
        intro num hnum he
        exact hval ⟨num, hnum, he⟩

/-- Witness of C17: ALL = {300, 302}; the gap fill leaves {300, 301, 302}. -/
theorem checkAllBlockNumberIsContinue_interval_witness :
    ∃ s', CheckAllBlockNumberIsContinue (mkState ["300", "302"] [] [] ["300"]) = some s' ∧
      s'.all = ["300", "302", "301"] ∧
      ∀ x, x ∈ s'.all ↔
        ∃ k : Int, numericMin (mkState ["300", "302"] [] [] ["300"]).all ≤ k ∧
          k ≤ numericMax (mkState ["300", "302"] [] [] ["300"]).all ∧ x = itoa k :=
  ⟨mkState ["300", "302", "301"] ["302", "301"] [] ["300"], by decide, rfl,
    (checkAllBlockNumberIsContinue_interval (mkState ["300", "302"] [] [] ["300"])
      (by decide)
      (by
        intro x hx
        have hx' : x = "300" ∨ x = "302" := by simpa [mkState] using hx
        rcases hx' with rfl | rfl
        · exact ⟨300, by decide⟩
        · exact ⟨302, by decide⟩)
      (by decide)).2 _ (by decide)⟩

end Evm
